import Mathlib

/-!
# Verification of DIPlib image statistics (src/math/statistics.cpp)

Shallow embedding of the statistics scan-line filters and of the streaming
accumulators they use.  A "line" of samples is modelled as a `List`; machine
`dfloat` (64-bit float) arithmetic is modelled exactly over `ℚ`
("within floating-point rounding tolerance" in the spec corresponds to exact
equality in this model); `dip::uint` counters are `ℕ`.

Definitions whose C++ source is in `src/src/math/statistics.cpp` are
translated from that file.  The accumulator value types
(`MinMaxAccumulator`, `StatisticsAccumulator`, `CovarianceAccumulator`,
`MomentAccumulator`) and `dip::Select` live in DIPlib headers that are not
part of the given sources; those are modelled from the spec, as marked in
their doc comments.
-/

set_option maxHeartbeats 2000000

/-! ## Count  (class dip__Count, lines 31–73, and Count, lines 77–86) -/

/-- Unmasked loop of `dip__Count::Filter`: counts samples whose `bin` value
is true. -/
def countLine (line : List Bool) : ℕ :=
  (line.filter (fun v => v)).length

/-- Masked loop of `dip__Count::Filter`: a sample is counted exactly when
`*mask && *in`. -/
def countMaskedLine (line : List (Bool × Bool)) : ℕ :=
  (line.filter (fun p => p.1 && p.2)).length

/-- `dip__Count::GetResult`: sums the per-thread counters. -/
def countGetResult (counts : List ℕ) : ℕ :=
  counts.sum

/-! ## MinMaxAccumulator

Modelled from the spec: the DIPlib `MinMaxAccumulator` header is not among
the given sources.  Per the spec it tracks a running minimum and maximum,
initialised to the type's most extreme representable values so that an
accumulator into which nothing was pushed is an identity for the merge;
`⊤`/`⊥` play the role of those extreme initial values, and `+=` is
component-wise min-of-mins, max-of-maxes. -/
structure MinMaxAccumulator where
  lo : WithTop ℚ
  hi : WithBot ℚ
  deriving DecidableEq, Repr

/-- The freshly constructed (empty) `MinMaxAccumulator`. -/
def MinMaxAccumulator.empty : MinMaxAccumulator := ⟨⊤, ⊥⟩

/-- Modelled from the spec: `MinMaxAccumulator::Push(value)`. -/
def MinMaxAccumulator.push (a : MinMaxAccumulator) (x : ℚ) : MinMaxAccumulator :=
  ⟨min a.lo (x : WithTop ℚ), max a.hi (x : WithBot ℚ)⟩

/-- Modelled from the spec: `MinMaxAccumulator::Push(value, value2)`, the
two-samples-at-once variant used by the unrolled loop. -/
def MinMaxAccumulator.push2 (a : MinMaxAccumulator) (x y : ℚ) : MinMaxAccumulator :=
  ⟨min a.lo (min (x : WithTop ℚ) (y : WithTop ℚ)),
   max a.hi (max (x : WithBot ℚ) (y : WithBot ℚ))⟩

/-- Modelled from the spec: `MinMaxAccumulator::operator+=`, component-wise
min-of-mins and max-of-maxes. -/
def MinMaxAccumulator.merge (a b : MinMaxAccumulator) : MinMaxAccumulator :=
  ⟨min a.lo b.lo, max a.hi b.hi⟩

/-- One-sample-at-a-time accumulation of a whole line (the masked loop of
`dip__MaximumAndMinimum::Filter` with an all-true mask reduces to this). -/
def minMaxOfList (l : List ℚ) : MinMaxAccumulator :=
  l.foldl MinMaxAccumulator.push MinMaxAccumulator.empty

/-- Unmasked loop of `dip__MaximumAndMinimum::Filter` (lines 374–385):
two samples per iteration via `Push(v, *in)`, the last odd sample handled
singly.  The loop body requires at least one sample (`bufferLength ≥ 1`);
the `[]` case below is never reached under that precondition. -/
def minMaxUnrolled (a : MinMaxAccumulator) : List ℚ → MinMaxAccumulator
  | [] => a
  | [x] => a.push x
  | x :: y :: rest => minMaxUnrolled (a.push2 x y) rest

/-- Masked loop of `dip__MaximumAndMinimum::Filter` (lines 362–372): pushes
a sample exactly when the mask is true. -/
def minMaxMaskedLine (a : MinMaxAccumulator) (line : List (Bool × ℚ)) : MinMaxAccumulator :=
  line.foldl (fun acc p => if p.1 then acc.push p.2 else acc) a

/-- `dip__MaximumAndMinimum::GetResult` (lines 391–397): folds the
per-thread accumulators with `+=` starting from slot 0. -/
def minMaxGetResult (slot0 : MinMaxAccumulator) (rest : List MinMaxAccumulator) :
    MinMaxAccumulator :=
  rest.foldl MinMaxAccumulator.merge slot0

/-! ### Basic merge lemmas for MinMaxAccumulator -/

theorem minMax_push_merge (a b : MinMaxAccumulator) (x : ℚ) :
    a.merge (b.push x) = (a.merge b).push x := by
  simp [MinMaxAccumulator.merge, MinMaxAccumulator.push, min_assoc, max_assoc]

theorem minMax_merge_empty (a : MinMaxAccumulator) :
    a.merge MinMaxAccumulator.empty = a := by
  simp [MinMaxAccumulator.merge, MinMaxAccumulator.empty]

theorem minMax_foldl_push (a : MinMaxAccumulator) (l : List ℚ) :
    l.foldl MinMaxAccumulator.push a = a.merge (minMaxOfList l) := by
  induction l generalizing a with
  | nil => simp [minMaxOfList, minMax_merge_empty]
  | cons x xs ih =>
      simp only [minMaxOfList, List.foldl_cons] at *
      rw [ih, ih (MinMaxAccumulator.empty.push x)]
      cases a with
      | mk alo ahi =>
        simp [MinMaxAccumulator.merge, MinMaxAccumulator.push, MinMaxAccumulator.empty,
          min_assoc, max_assoc]

theorem minMaxOfList_append (l1 l2 : List ℚ) :
    minMaxOfList (l1 ++ l2) = (minMaxOfList l1).merge (minMaxOfList l2) := by
  simp only [minMaxOfList, List.foldl_append]
  exact minMax_foldl_push _ l2

theorem minMaxOfList_perm {l1 l2 : List ℚ} (h : l1.Perm l2) :
    minMaxOfList l1 = minMaxOfList l2 := by
  induction h with
  | nil => rfl
  | cons x _ ih =>
      simp only [minMaxOfList, List.foldl_cons]
      rw [minMax_foldl_push, minMax_foldl_push]
      simp only [minMaxOfList] at ih ⊢
      rw [ih]
  | swap x y l =>
      simp only [minMaxOfList, List.foldl_cons]
      congr 1
      simp [MinMaxAccumulator.push, MinMaxAccumulator.empty, min_assoc, max_assoc,
        min_comm ((x : WithTop ℚ)) ((y : WithTop ℚ)),
        max_comm ((x : WithBot ℚ)) ((y : WithBot ℚ))]
  | trans _ _ ih1 ih2 => exact ih1.trans ih2

/-! Count merge lemmas -/

theorem countLine_append (l1 l2 : List Bool) :
    countLine (l1 ++ l2) = countLine l1 + countLine l2 := by
  simp [countLine]

theorem countLine_perm {l1 l2 : List Bool} (h : l1.Perm l2) :
    countLine l1 = countLine l2 := by
  simp only [countLine]
  exact (h.filter _).length_eq

/-! ## StatisticsAccumulator

Modelled from the spec: the DIPlib `StatisticsAccumulator` header is not
among the given sources.  Per the spec it is an online (single-pass,
numerically stable) accumulator of count, mean and the 2nd/3rd/4th
central-moment sums, using an extended Welford-style update, and `+=`
recombines central moments with the standard pairwise parallel-moments
combination formula. -/

@[ext] structure StatisticsAccumulator where
  n : ℕ
  mean : ℚ
  m2 : ℚ
  m3 : ℚ
  m4 : ℚ
  deriving DecidableEq, Repr

def StatisticsAccumulator.empty : StatisticsAccumulator := ⟨0, 0, 0, 0, 0⟩

def StatisticsAccumulator.push (a : StatisticsAccumulator) (x : ℚ) : StatisticsAccumulator :=
  let n : ℚ := (a.n + 1 : ℕ)
  let delta := x - a.mean
  let term1 := delta / n
  let term2 := term1 * term1
  let term3 := delta * term1 * (n - 1)
  { n := a.n + 1
    mean := a.mean + term1
    m2 := a.m2 + term3
    m3 := a.m3 + term3 * term1 * (n - 2) - 3 * term1 * a.m2
    m4 := a.m4 + term3 * term2 * (n * n - 3 * n + 3) + 6 * term2 * a.m2 - 4 * term1 * a.m3 }

def StatisticsAccumulator.merge (a b : StatisticsAccumulator) : StatisticsAccumulator :=
  let an : ℚ := (a.n : ℕ)
  let bn : ℚ := (b.n : ℕ)
  let n : ℚ := ((a.n + b.n : ℕ) : ℚ)
  let delta := b.mean - a.mean
  { n := a.n + b.n
    mean := a.mean + bn * delta / n
    m2 := a.m2 + b.m2 + delta ^ 2 * an * bn / n
    m3 := a.m3 + b.m3 + delta ^ 3 * an * bn * (an - bn) / n ^ 2
          + 3 * delta * (an * b.m2 - bn * a.m2) / n
    m4 := a.m4 + b.m4 + delta ^ 4 * an * bn * (an ^ 2 - an * bn + bn ^ 2) / n ^ 3
          + 6 * delta ^ 2 * (an ^ 2 * b.m2 + bn ^ 2 * a.m2) / n ^ 2
          + 4 * delta * (an * b.m3 - bn * a.m3) / n }

def statsOfList (l : List ℚ) : StatisticsAccumulator :=
  l.foldl StatisticsAccumulator.push StatisticsAccumulator.empty

def powS (k : ℕ) (l : List ℚ) : ℚ :=
  (l.map (fun x => x ^ k)).sum

def statsClosed (len : ℕ) (s1 s2 s3 s4 : ℚ) : StatisticsAccumulator :=
  let n : ℚ := (len : ℚ)
  { n := len
    mean := s1 / n
    m2 := s2 - s1 ^ 2 / n
    m3 := s3 - 3 * s1 * s2 / n + 2 * s1 ^ 3 / n ^ 2
    m4 := s4 - 4 * s1 * s3 / n + 6 * s1 ^ 2 * s2 / n ^ 2 - 3 * s1 ^ 4 / n ^ 3 }

theorem statsClosed_zero : statsClosed 0 0 0 0 0 = StatisticsAccumulator.empty := by
  simp [statsClosed, StatisticsAccumulator.empty]

theorem push_closed_zero (x : ℚ) :
    (statsClosed 0 0 0 0 0).push x = statsClosed 1 x (x ^ 2) (x ^ 3) (x ^ 4) := by
  apply StatisticsAccumulator.ext <;>
    simp only [statsClosed, StatisticsAccumulator.push] <;> norm_num <;> ring

theorem push_closed_pos (len : ℕ) (hlen : len ≠ 0) (s1 s2 s3 s4 x : ℚ) :
    (statsClosed len s1 s2 s3 s4).push x
      = statsClosed (len + 1) (s1 + x) (s2 + x ^ 2) (s3 + x ^ 3) (s4 + x ^ 4) := by
  have hn : ((len : ℚ)) ≠ 0 := Nat.cast_ne_zero.mpr hlen
  have hn1 : ((len : ℚ) + 1) ≠ 0 := by positivity
  apply StatisticsAccumulator.ext <;>
    simp only [statsClosed, StatisticsAccumulator.push] <;> push_cast <;>
      first
        | rfl
        | (field_simp; ring)

theorem merge_closed_pos (n m : ℕ) (hn : n ≠ 0) (hm : m ≠ 0)
    (s1 s2 s3 s4 t1 t2 t3 t4 : ℚ) :
    (statsClosed n s1 s2 s3 s4).merge (statsClosed m t1 t2 t3 t4)
      = statsClosed (n + m) (s1 + t1) (s2 + t2) (s3 + t3) (s4 + t4) := by
  have hnq : ((n : ℚ)) ≠ 0 := Nat.cast_ne_zero.mpr hn
  have hmq : ((m : ℚ)) ≠ 0 := Nat.cast_ne_zero.mpr hm
  have hnm : ((n : ℚ) + (m : ℚ)) ≠ 0 := by positivity
  apply StatisticsAccumulator.ext <;>
    simp only [statsClosed, StatisticsAccumulator.merge] <;> push_cast <;>
      first
        | rfl
        | (field_simp; ring)

theorem merge_empty_right (a : StatisticsAccumulator) :
    a.merge StatisticsAccumulator.empty = a := by
  simp only [StatisticsAccumulator.merge, StatisticsAccumulator.empty]
  cases a with
  | mk n mean m2 m3 m4 =>
      simp only [StatisticsAccumulator.mk.injEq]
      norm_num

theorem powS_nil (k : ℕ) : powS k [] = 0 := rfl

theorem powS_append (k : ℕ) (l1 l2 : List ℚ) :
    powS k (l1 ++ l2) = powS k l1 + powS k l2 := by
  simp [powS]

theorem powS_concat (k : ℕ) (l : List ℚ) (x : ℚ) :
    powS k (l ++ [x]) = powS k l + x ^ k := by
  simp [powS]

theorem powS_perm (k : ℕ) {l1 l2 : List ℚ} (h : l1.Perm l2) :
    powS k l1 = powS k l2 := by
  exact (h.map _).sum_eq

theorem statsOfList_concat (l : List ℚ) (x : ℚ) :
    statsOfList (l ++ [x]) = (statsOfList l).push x := by
  simp [statsOfList]

theorem statsOfList_eq_closed (l : List ℚ) :
    statsOfList l = statsClosed l.length (powS 1 l) (powS 2 l) (powS 3 l) (powS 4 l) := by
  induction l using List.reverseRecOn with
  | nil =>
      simp only [statsOfList, List.foldl_nil, List.length_nil, powS_nil]
      exact statsClosed_zero.symm
  | append_singleton l x ih =>
      rw [statsOfList_concat, ih]
      rcases eq_or_ne l [] with h | h
      · subst h
        simp only [List.length_nil, powS_nil, List.nil_append, List.length_cons,
          List.length_nil]
        rw [push_closed_zero]
        simp [powS]
      · have hlen : l.length ≠ 0 := by simpa [List.length_eq_zero] using h
        rw [push_closed_pos l.length hlen]
        simp [powS_concat, List.length_append]

theorem stats_merge_empty_left {b : StatisticsAccumulator} (hb : b.n ≠ 0) :
    StatisticsAccumulator.empty.merge b = b := by
  have hbq : ((b.n : ℚ)) ≠ 0 := Nat.cast_ne_zero.mpr hb
  cases b with
  | mk n mean m2 m3 m4 =>
      simp only [StatisticsAccumulator.merge, StatisticsAccumulator.empty] at *
      apply StatisticsAccumulator.ext <;> (simp; try field_simp)

theorem statsOfList_append (l1 l2 : List ℚ) :
    (statsOfList l1).merge (statsOfList l2) = statsOfList (l1 ++ l2) := by
  rcases eq_or_ne l1 [] with h1 | h1
  · subst h1
    rcases eq_or_ne l2 [] with h2 | h2
    · subst h2
      simp only [List.nil_append]
      show StatisticsAccumulator.empty.merge StatisticsAccumulator.empty = _
      exact merge_empty_right _
    · have : (statsOfList l2).n ≠ 0 := by
        rw [statsOfList_eq_closed]
        simpa [statsClosed, List.length_eq_zero] using h2
      simpa using stats_merge_empty_left this
  · rcases eq_or_ne l2 [] with h2 | h2
    · subst h2
      simp only [List.append_nil]
      exact merge_empty_right _
    · have hl1 : l1.length ≠ 0 := by simpa [List.length_eq_zero] using h1
      have hl2 : l2.length ≠ 0 := by simpa [List.length_eq_zero] using h2
      rw [statsOfList_eq_closed l1, statsOfList_eq_closed l2, statsOfList_eq_closed (l1 ++ l2)]
      rw [merge_closed_pos _ _ hl1 hl2]
      simp [powS_append, List.length_append]

theorem statsOfList_perm {l1 l2 : List ℚ} (h : l1.Perm l2) :
    statsOfList l1 = statsOfList l2 := by
  rw [statsOfList_eq_closed, statsOfList_eq_closed, h.length_eq,
    powS_perm 1 h, powS_perm 2 h, powS_perm 3 h, powS_perm 4 h]

@[ext] structure CovarianceAccumulator where
  n : ℕ
  meanX : ℚ
  meanY : ℚ
  cross : ℚ
  deriving DecidableEq, Repr

def CovarianceAccumulator.empty : CovarianceAccumulator := ⟨0, 0, 0, 0⟩

def CovarianceAccumulator.push (a : CovarianceAccumulator) (x y : ℚ) :
    CovarianceAccumulator :=
  let n : ℚ := (a.n + 1 : ℕ)
  let dx := x - a.meanX
  let dy := y - a.meanY
  { n := a.n + 1
    meanX := a.meanX + dx / n
    meanY := a.meanY + dy / n
    cross := a.cross + dx * dy * (n - 1) / n }

def CovarianceAccumulator.merge (a b : CovarianceAccumulator) : CovarianceAccumulator :=
  let an : ℚ := (a.n : ℕ)
  let bn : ℚ := (b.n : ℕ)
  let n : ℚ := ((a.n + b.n : ℕ) : ℚ)
  let dx := b.meanX - a.meanX
  let dy := b.meanY - a.meanY
  { n := a.n + b.n
    meanX := a.meanX + bn * dx / n
    meanY := a.meanY + bn * dy / n
    cross := a.cross + b.cross + dx * dy * an * bn / n }

def covOfList (l : List (ℚ × ℚ)) : CovarianceAccumulator :=
  l.foldl (fun a p => a.push p.1 p.2) CovarianceAccumulator.empty

def covClosed (len : ℕ) (sx sy sxy : ℚ) : CovarianceAccumulator :=
  let n : ℚ := (len : ℚ)
  { n := len
    meanX := sx / n
    meanY := sy / n
    cross := sxy - sx * sy / n }

theorem covClosed_zero : covClosed 0 0 0 0 = CovarianceAccumulator.empty := by
  simp [covClosed, CovarianceAccumulator.empty]

theorem cov_push_closed_zero (x y : ℚ) :
    (covClosed 0 0 0 0).push x y = covClosed 1 x y (x * y) := by
  apply CovarianceAccumulator.ext <;>
    simp only [covClosed, CovarianceAccumulator.push] <;> norm_num

theorem cov_push_closed_pos (len : ℕ) (hlen : len ≠ 0) (sx sy sxy x y : ℚ) :
    (covClosed len sx sy sxy).push x y
      = covClosed (len + 1) (sx + x) (sy + y) (sxy + x * y) := by
  have hn : ((len : ℚ)) ≠ 0 := Nat.cast_ne_zero.mpr hlen
  have hn1 : ((len : ℚ) + 1) ≠ 0 := by positivity
  apply CovarianceAccumulator.ext <;>
    simp only [covClosed, CovarianceAccumulator.push] <;> push_cast <;>
      first
        | rfl
        | (field_simp; ring)

theorem cov_merge_closed_pos (n m : ℕ) (hn : n ≠ 0) (hm : m ≠ 0)
    (sx sy sxy tx ty txy : ℚ) :
    (covClosed n sx sy sxy).merge (covClosed m tx ty txy)
      = covClosed (n + m) (sx + tx) (sy + ty) (sxy + txy) := by
  have hnq : ((n : ℚ)) ≠ 0 := Nat.cast_ne_zero.mpr hn
  have hmq : ((m : ℚ)) ≠ 0 := Nat.cast_ne_zero.mpr hm
  have hnm : ((n : ℚ) + (m : ℚ)) ≠ 0 := by positivity
  apply CovarianceAccumulator.ext <;>
    simp only [covClosed, CovarianceAccumulator.merge] <;> push_cast <;>
      first
        | rfl
        | (field_simp; ring)

theorem cov_merge_empty_right (a : CovarianceAccumulator) :
    a.merge CovarianceAccumulator.empty = a := by
  cases a with
  | mk n meanX meanY cross =>
      simp only [CovarianceAccumulator.merge, CovarianceAccumulator.empty,
        CovarianceAccumulator.mk.injEq]
      norm_num

theorem cov_merge_empty_left {b : CovarianceAccumulator} (hb : b.n ≠ 0) :
    CovarianceAccumulator.empty.merge b = b := by
  have hbq : ((b.n : ℚ)) ≠ 0 := Nat.cast_ne_zero.mpr hb
  cases b with
  | mk n meanX meanY cross =>
      simp only [CovarianceAccumulator.merge, CovarianceAccumulator.empty] at *
      apply CovarianceAccumulator.ext <;> (simp; try field_simp)

def covSx (l : List (ℚ × ℚ)) : ℚ := (l.map Prod.fst).sum

def covSy (l : List (ℚ × ℚ)) : ℚ := (l.map Prod.snd).sum

def covSxy (l : List (ℚ × ℚ)) : ℚ := (l.map (fun p => p.1 * p.2)).sum

theorem covOfList_eq_closed (l : List (ℚ × ℚ)) :
    covOfList l = covClosed l.length (covSx l) (covSy l) (covSxy l) := by
  induction l using List.reverseRecOn with
  | nil =>
      simp only [covOfList, List.foldl_nil, List.length_nil]
      rw [covSx, covSy, covSxy]
      simpa using covClosed_zero.symm
  | append_singleton l p ih =>
      have hconcat : covOfList (l ++ [p]) = (covOfList l).push p.1 p.2 := by
        simp [covOfList]
      rw [hconcat, ih]
      rcases eq_or_ne l [] with h | h
      · subst h
        simp only [List.length_nil, List.nil_append]
        rw [covSx, covSy, covSxy]
        simp only [List.map_nil, List.sum_nil]
        rw [cov_push_closed_zero]
        simp [covSx, covSy, covSxy]
      · have hlen : l.length ≠ 0 := by simpa [List.length_eq_zero] using h
        rw [cov_push_closed_pos l.length hlen]
        simp [covSx, covSy, covSxy, List.length_append]

theorem covOfList_append (l1 l2 : List (ℚ × ℚ)) :
    (covOfList l1).merge (covOfList l2) = covOfList (l1 ++ l2) := by
  rcases eq_or_ne l1 [] with h1 | h1
  · subst h1
    rcases eq_or_ne l2 [] with h2 | h2
    · subst h2
      exact cov_merge_empty_right _
    · have : (covOfList l2).n ≠ 0 := by
        rw [covOfList_eq_closed]
        simpa [covClosed, List.length_eq_zero] using h2
      simpa using cov_merge_empty_left this
  · rcases eq_or_ne l2 [] with h2 | h2
    · subst h2
      simp only [List.append_nil]
      exact cov_merge_empty_right _
    · have hl1 : l1.length ≠ 0 := by simpa [List.length_eq_zero] using h1
      have hl2 : l2.length ≠ 0 := by simpa [List.length_eq_zero] using h2
      rw [covOfList_eq_closed l1, covOfList_eq_closed l2, covOfList_eq_closed (l1 ++ l2)]
      rw [cov_merge_closed_pos _ _ hl1 hl2]
      simp [covSx, covSy, covSxy, List.length_append]

theorem covOfList_perm {l1 l2 : List (ℚ × ℚ)} (h : l1.Perm l2) :
    covOfList l1 = covOfList l2 := by
  rw [covOfList_eq_closed, covOfList_eq_closed, h.length_eq]
  rw [covSx, covSy, covSxy, covSx, covSy, covSxy,
    (h.map Prod.fst).sum_eq, (h.map Prod.snd).sum_eq,
    (h.map (fun p => p.1 * p.2)).sum_eq]

/-! ## CenterOfMass  (class dip__CenterOfMass, lines 575–646, and
CenterOfMass, lines 650–661)

A sample of a scalar `nD`-dimensional image is a pair of its coordinate
(a function `Fin nD → ℚ`, the `pos` array of the loop, with coordinates
embedded into `ℚ` as the C++ code casts them to `dfloat`) and its value.
The per-thread `FloatArray accArray_[thread]` of length `nD + 1` is a
function `Fin (nD + 1) → ℚ` holding `sum(I*x), sum(I*y), ..., sum(I)`. -/

/-- The contribution of one sample to the loop body of
`dip__CenterOfMass::Filter` (lines 608–615): `vars[jj] += pos[jj] * (*in)`
for `jj < nD` and `vars[nD] += *in`. -/
def comContrib (nD : ℕ) (pos : Fin nD → ℚ) (v : ℚ) : Fin (nD + 1) → ℚ :=
  fun j => if h : (j : ℕ) < nD then pos ⟨j, h⟩ * v else v

/-- Unmasked loop of `dip__CenterOfMass::Filter`: accumulates the
contribution of every sample into `vars` (initially all zero). -/
def comLineAcc (nD : ℕ) (samples : List ((Fin nD → ℚ) × ℚ)) : Fin (nD + 1) → ℚ :=
  samples.foldl (fun acc s => acc + comContrib nD s.1 s.2) 0

/-- Masked loop of `dip__CenterOfMass::Filter` (lines 595–605): a sample
contributes exactly when its mask value is true. -/
def comMaskedLineAcc (nD : ℕ) (samples : List (Bool × ((Fin nD → ℚ) × ℚ))) :
    Fin (nD + 1) → ℚ :=
  samples.foldl (fun acc s => if s.1 then acc + comContrib nD s.2.1 s.2.2 else acc) 0

/-- The final division step of `dip__CenterOfMass::GetResult`
(lines 631–641): if the total mass `out[nD]` is nonzero, each per-axis sum
is divided by it; otherwise the result is set to the zero vector; the array
is then resized to `nD` entries. -/
def comDivide (nD : ℕ) (out : Fin (nD + 1) → ℚ) : Fin nD → ℚ :=
  if out (Fin.last nD) ≠ 0 then fun j => out j.castSucc / out (Fin.last nD) else fun _ => 0

/-- `dip__CenterOfMass::GetResult` (lines 626–642): sums the per-thread
arrays with `+=` starting from slot 0, then divides by the total mass. -/
def comGetResult (nD : ℕ) (slot0 : Fin (nD + 1) → ℚ) (rest : List (Fin (nD + 1) → ℚ)) :
    Fin nD → ℚ :=
  comDivide nD (rest.foldl (· + ·) slot0)

theorem foldl_add_eq {α M : Type} [AddCommMonoid M] (f : α → M) (init : M) (l : List α) :
    l.foldl (fun a s => a + f s) init = init + (l.map f).sum := by
  induction l generalizing init with
  | nil => simp
  | cons s rest ih => simp [ih, add_assoc]

theorem comLineAcc_eq_sum (nD : ℕ) (samples : List ((Fin nD → ℚ) × ℚ)) :
    comLineAcc nD samples = (samples.map (fun s => comContrib nD s.1 s.2)).sum := by
  simp [comLineAcc, foldl_add_eq]

theorem comLineAcc_append (nD : ℕ) (l1 l2 : List ((Fin nD → ℚ) × ℚ)) :
    comLineAcc nD (l1 ++ l2) = comLineAcc nD l1 + comLineAcc nD l2 := by
  simp [comLineAcc_eq_sum]

theorem comLineAcc_perm (nD : ℕ) {l1 l2 : List ((Fin nD → ℚ) × ℚ)} (h : l1.Perm l2) :
    comLineAcc nD l1 = comLineAcc nD l2 := by
  rw [comLineAcc_eq_sum, comLineAcc_eq_sum]
  exact (h.map _).sum_eq

/-- The last entry of the center-of-mass accumulator is the total mass. -/
theorem comLineAcc_last (nD : ℕ) (samples : List ((Fin nD → ℚ) × ℚ)) :
    comLineAcc nD samples (Fin.last nD) = (samples.map Prod.snd).sum := by
  rw [comLineAcc_eq_sum]
  induction samples with
  | nil => simp
  | cons s rest ih =>
      simp only [List.map_cons, List.sum_cons, Pi.add_apply, ih.symm]
      simp [comContrib, Fin.last]

/-- Entry `j < nD` of the center-of-mass accumulator is `sum(I * pos_j)`. -/
theorem comLineAcc_castSucc (nD : ℕ) (samples : List ((Fin nD → ℚ) × ℚ)) (j : Fin nD) :
    comLineAcc nD samples j.castSucc = (samples.map (fun s => s.1 j * s.2)).sum := by
  rw [comLineAcc_eq_sum]
  induction samples with
  | nil => simp
  | cons s rest ih =>
      simp only [List.map_cons, List.sum_cons, Pi.add_apply, ih.symm]
      have hj : ((j.castSucc : Fin (nD + 1)) : ℕ) < nD := j.isLt
      simp [comContrib, hj]

/-! ## MomentAccumulator  (used by dip__Moments, lines 665–719)

Modelled from the spec: the DIPlib `MomentAccumulator` header is not among
the given sources.  Per the spec it accumulates the sums of `value`,
`value*position` and `value*position*position` (upper triangle only, since
the moment matrix is symmetric), and `+=` is component-wise addition. -/

@[ext] structure MomentAccumulator (nD : ℕ) where
  m0 : ℚ
  m1 : Fin nD → ℚ
  m2 : Fin nD → Fin nD → ℚ

/-- The freshly constructed (all-zero) `MomentAccumulator`. -/
def MomentAccumulator.empty (nD : ℕ) : MomentAccumulator nD := ⟨0, 0, 0⟩

/-- Modelled from the spec: `MomentAccumulator::Push(position, value)`;
only the upper triangle (`i ≤ j`) of the second-order sums is stored. -/
def MomentAccumulator.push {nD : ℕ} (a : MomentAccumulator nD)
    (pos : Fin nD → ℚ) (v : ℚ) : MomentAccumulator nD :=
  { m0 := a.m0 + v
    m1 := fun j => a.m1 j + pos j * v
    m2 := fun i j => a.m2 i j + if i ≤ j then v * pos i * pos j else 0 }

/-- Modelled from the spec: `MomentAccumulator::operator+=`, component-wise
addition of the sufficient statistics. -/
def MomentAccumulator.merge {nD : ℕ} (a b : MomentAccumulator nD) : MomentAccumulator nD :=
  { m0 := a.m0 + b.m0
    m1 := fun j => a.m1 j + b.m1 j
    m2 := fun i j => a.m2 i j + b.m2 i j }

/-- Unmasked loop of `dip__Moments::Filter` (lines 696–701): pushes every
sample of the line with its coordinate. -/
def momOfList (nD : ℕ) (samples : List ((Fin nD → ℚ) × ℚ)) : MomentAccumulator nD :=
  samples.foldl (fun a s => a.push s.1 s.2) (MomentAccumulator.empty nD)

/-- `dip__Moments::GetResult` (lines 709–715): folds the per-thread
accumulators with `+=` starting from slot 0. -/
def momGetResult {nD : ℕ} (slot0 : MomentAccumulator nD)
    (rest : List (MomentAccumulator nD)) : MomentAccumulator nD :=
  rest.foldl MomentAccumulator.merge slot0

theorem mom_merge_push {nD : ℕ} (a b : MomentAccumulator nD) (pos : Fin nD → ℚ) (v : ℚ) :
    a.merge (b.push pos v) = (a.merge b).push pos v := by
  apply MomentAccumulator.ext <;>
    simp only [MomentAccumulator.merge, MomentAccumulator.push] <;>
      funext <;> ring

theorem mom_merge_empty {nD : ℕ} (a : MomentAccumulator nD) :
    a.merge (MomentAccumulator.empty nD) = a := by
  apply MomentAccumulator.ext <;>
    simp [MomentAccumulator.merge, MomentAccumulator.empty]

theorem mom_merge_assoc {nD : ℕ} (a b c : MomentAccumulator nD) :
    a.merge (b.merge c) = (a.merge b).merge c := by
  apply MomentAccumulator.ext <;>
    simp only [MomentAccumulator.merge] <;> funext <;> ring

theorem mom_foldl_push {nD : ℕ} (a : MomentAccumulator nD)
    (l : List ((Fin nD → ℚ) × ℚ)) :
    l.foldl (fun acc s => acc.push s.1 s.2) a = a.merge (momOfList nD l) := by
  induction l generalizing a with
  | nil => simp [momOfList, mom_merge_empty]
  | cons s rest ih =>
      simp only [momOfList, List.foldl_cons] at ih ⊢
      rw [ih, ih (((MomentAccumulator.empty nD)).push s.1 s.2)]
      rw [mom_merge_assoc, mom_merge_push a _ s.1 s.2, mom_merge_empty]

theorem momOfList_append (nD : ℕ) (l1 l2 : List ((Fin nD → ℚ) × ℚ)) :
    (momOfList nD l1).merge (momOfList nD l2) = momOfList nD (l1 ++ l2) := by
  simp only [momOfList, List.foldl_append]
  exact (mom_foldl_push _ l2).symm

theorem momOfList_perm (nD : ℕ) {l1 l2 : List ((Fin nD → ℚ) × ℚ)} (h : l1.Perm l2) :
    momOfList nD l1 = momOfList nD l2 := by
  induction h with
  | nil => rfl
  | cons s _ ih =>
      simp only [momOfList, List.foldl_cons]
      rw [mom_foldl_push, mom_foldl_push]
      simp only [momOfList] at ih ⊢
      rw [ih]
  | swap x y l =>
      simp only [momOfList, List.foldl_cons]
      congr 1
      apply MomentAccumulator.ext <;>
        simp only [MomentAccumulator.push, MomentAccumulator.empty] <;>
          funext <;> ring
  | trans _ _ ih1 ih2 => exact ih1.trans ih2

/-! ## MaxPixel / MinPixel with position
(dip__MaxPixel lines 95–182, dip__MinPixel lines 184–271,
MaximumPixel lines 275–285, MinimumPixel lines 287–297)

The element type `TPI` is modelled as `ℤ` together with an explicit
parameter `lowest` (resp. `highest`) standing for
`std::numeric_limits<TPI>::lowest()` (resp. `::max()`); faithfulness of an
instantiation requires every sample value to satisfy `lowest ≤ v`
(resp. `v ≤ highest`), which holds in C++ by definition of those limits.
Coordinates (`dip::UnsignedArray`) are `List ℕ`; a default-constructed or
value-initialised `UnsignedArray` of size `k` is `List.replicate k 0`, and
a default-constructed one (as produced by `coord_.resize(threads)`) is
`[]`. -/

/-- `coord = params.position; coord[params.dimension] += ii`. -/
def updCoord (position : List ℕ) (dim ii : ℕ) : List ℕ :=
  position.set dim (position.getD dim 0 + ii)

/-- Unmasked loop of `dip__MaxPixel::Filter` (lines 132–150): running
local best `acc` is replaced on `*in > value` (`first`) or `*in >= value`
(`!first`). -/
def maxScanGo (first : Bool) (position : List ℕ) (dim : ℕ) :
    List ℤ → ℕ → ℤ × List ℕ → ℤ × List ℕ
  | [], _, acc => acc
  | v :: rest, ii, acc =>
      maxScanGo first position dim rest (ii + 1)
        (if (if first then acc.1 < v else acc.1 ≤ v) then (v, updCoord position dim ii) else acc)

/-- The whole unmasked body of `dip__MaxPixel::Filter` up to the thread
merge: local `value` starts at `lowest`, local `coord` at the
value-initialised array of the image dimensionality. -/
def maxPixelLine (first : Bool) (lowest : ℤ) (position : List ℕ) (dim : ℕ)
    (line : List ℤ) : ℤ × List ℕ :=
  maxScanGo first position dim line 0 (lowest, List.replicate position.length 0)

/-- Masked loop of `dip__MaxPixel::Filter` (lines 109–129): the update
additionally requires `*mask`. -/
def maxScanGoMasked (first : Bool) (position : List ℕ) (dim : ℕ) :
    List (Bool × ℤ) → ℕ → ℤ × List ℕ → ℤ × List ℕ
  | [], _, acc => acc
  | p :: rest, ii, acc =>
      maxScanGoMasked first position dim rest (ii + 1)
        (if p.1 ∧ (if first then acc.1 < p.2 else acc.1 ≤ p.2)
         then (p.2, updCoord position dim ii) else acc)

/-- Lines 152–162 of `dip__MaxPixel::Filter`: merge of the line-local best
into the per-thread slot, strict for `first`, non-strict otherwise. -/
def maxSlotUpd (first : Bool) (res slot : ℤ × List ℕ) : ℤ × List ℕ :=
  if (if first then slot.1 < res.1 else slot.1 ≤ res.1) then res else slot

/-- The fold underlying `dip__MaxPixel::GetResult` (lines 169–177): scans
the slots in index order keeping the best (strict `>` for `first`,
non-strict `>=` otherwise); tracking the best slot is equivalent to
tracking its index as the C++ does. -/
def pickBest (first : Bool) (best : ℤ × List ℕ) (slots : List (ℤ × List ℕ)) : ℤ × List ℕ :=
  slots.foldl (fun b s => if (if first then b.1 < s.1 else b.1 ≤ s.1) then s else b) best

/-- `dip__MaxPixel::GetResult`: the coordinate of the winning slot. -/
def maxGetResult (first : Bool) (slot0 : ℤ × List ℕ) (rest : List (ℤ × List ℕ)) : List ℕ :=
  (pickBest first slot0 rest).2

/-- `dip__MaxPixel::SetNumberOfThreads` (lines 164–167): per-thread values
start at `std::numeric_limits<TPI>::lowest()`, per-thread coordinates are
default-constructed (empty) arrays. -/
def maxSetThreads (lowest : ℤ) (threads : ℕ) : List (ℤ × List ℕ) :=
  List.replicate threads (lowest, [])

/-- `MaximumPixel` on a one-line scalar image processed by one thread:
`SetNumberOfThreads 1`, one `Filter` call, then `GetResult`. -/
def maxPixelRun1 (first : Bool) (lowest : ℤ) (position : List ℕ) (dim : ℕ)
    (line : List ℤ) : List ℕ :=
  maxGetResult first (maxSlotUpd first (maxPixelLine first lowest position dim line)
    (lowest, [])) []

/-- Unmasked loop of `dip__MinPixel::Filter` (lines 221–239): update on
`*in < value` (`first`) or `*in <= value` (`!first`). -/
def minScanGo (first : Bool) (position : List ℕ) (dim : ℕ) :
    List ℤ → ℕ → ℤ × List ℕ → ℤ × List ℕ
  | [], _, acc => acc
  | v :: rest, ii, acc =>
      minScanGo first position dim rest (ii + 1)
        (if (if first then v < acc.1 else v ≤ acc.1) then (v, updCoord position dim ii) else acc)

/-- The whole unmasked body of `dip__MinPixel::Filter` up to the thread
merge: local `value` starts at `std::numeric_limits<TPI>::max()`. -/
def minPixelLine (first : Bool) (highest : ℤ) (position : List ℕ) (dim : ℕ)
    (line : List ℤ) : ℤ × List ℕ :=
  minScanGo first position dim line 0 (highest, List.replicate position.length 0)

/-- Lines 241–251 of `dip__MinPixel::Filter`: thread-slot merge. -/
def minSlotUpd (first : Bool) (res slot : ℤ × List ℕ) : ℤ × List ℕ :=
  if (if first then res.1 < slot.1 else res.1 ≤ slot.1) then res else slot

/-- The fold underlying `dip__MinPixel::GetResult` (lines 258–266). -/
def pickBestMin (first : Bool) (best : ℤ × List ℕ) (slots : List (ℤ × List ℕ)) :
    ℤ × List ℕ :=
  slots.foldl (fun b s => if (if first then s.1 < b.1 else s.1 ≤ b.1) then s else b) best

/-- `dip__MinPixel::GetResult`: the coordinate of the winning slot. -/
def minGetResult (first : Bool) (slot0 : ℤ × List ℕ) (rest : List (ℤ × List ℕ)) : List ℕ :=
  (pickBestMin first slot0 rest).2

/-- `dip__MinPixel::SetNumberOfThreads` (lines 253–256). -/
def minSetThreads (highest : ℤ) (threads : ℕ) : List (ℤ × List ℕ) :=
  List.replicate threads (highest, [])

/-- `MinimumPixel` on a one-line scalar image processed by one thread. -/
def minPixelRun1 (first : Bool) (highest : ℤ) (position : List ℕ) (dim : ℕ)
    (line : List ℤ) : List ℕ :=
  minGetResult first (minSlotUpd first (minPixelLine first highest position dim line)
    (highest, [])) []

/-! ### Specification-side helpers: maximum of a list, first/last index -/

/-- The maximum value of a nonempty list (`0` as junk on `[]`). -/
def listMax : List ℤ → ℤ
  | [] => 0
  | [v] => v
  | v :: w :: rest => max v (listMax (w :: rest))

/-- The minimum value of a nonempty list (`0` as junk on `[]`). -/
def listMin : List ℤ → ℤ
  | [] => 0
  | [v] => v
  | v :: w :: rest => min v (listMin (w :: rest))

/-- Index of the first occurrence of `m` (list length as junk if absent). -/
def firstIdxOf : List ℤ → ℤ → ℕ
  | [], _ => 0
  | v :: rest, m => if v = m then 0 else firstIdxOf rest m + 1

/-- Index of the last occurrence of `m` (`0` as junk if absent). -/
def lastIdxOf : List ℤ → ℤ → ℕ
  | [], _ => 0
  | _ :: rest, m => if m ∈ rest then lastIdxOf rest m + 1 else 0

theorem listMax_cons (v : ℤ) {rest : List ℤ} (h : rest ≠ []) :
    listMax (v :: rest) = max v (listMax rest) := by
  cases rest with
  | nil => exact absurd rfl h
  | cons w r => rfl

theorem le_listMax {l : List ℤ} {v : ℤ} (h : v ∈ l) : v ≤ listMax l := by
  induction l with
  | nil => cases h
  | cons w rest ih =>
      rcases eq_or_ne rest ([] : List ℤ) with hr | hr
      · subst hr
        simp only [List.mem_singleton] at h
        subst h
        exact le_refl _
      · rw [listMax_cons w hr]
        rcases List.mem_cons.mp h with h1 | h1
        · exact h1 ▸ le_max_left _ _
        · exact le_trans (ih h1) (le_max_right _ _)

theorem listMax_mem {l : List ℤ} (h : l ≠ []) : listMax l ∈ l := by
  induction l with
  | nil => exact absurd rfl h
  | cons w rest ih =>
      rcases eq_or_ne rest ([] : List ℤ) with hr | hr
      · subst hr
        simp [listMax]
      · rw [listMax_cons w hr]
        rcases le_total (listMax rest) w with hle | hle
        · simp [max_eq_left hle]
        · rw [max_eq_right hle]
          exact List.mem_cons_of_mem _ (ih hr)

theorem listMin_cons (v : ℤ) {rest : List ℤ} (h : rest ≠ []) :
    listMin (v :: rest) = min v (listMin rest) := by
  cases rest with
  | nil => exact absurd rfl h
  | cons w r => rfl

theorem listMin_le {l : List ℤ} {v : ℤ} (h : v ∈ l) : listMin l ≤ v := by
  induction l with
  | nil => cases h
  | cons w rest ih =>
      rcases eq_or_ne rest ([] : List ℤ) with hr | hr
      · subst hr
        simp only [List.mem_singleton] at h
        subst h
        exact le_refl _
      · rw [listMin_cons w hr]
        rcases List.mem_cons.mp h with h1 | h1
        · exact h1 ▸ min_le_left _ _
        · exact le_trans (min_le_right _ _) (ih h1)

theorem listMin_mem {l : List ℤ} (h : l ≠ []) : listMin l ∈ l := by
  induction l with
  | nil => exact absurd rfl h
  | cons w rest ih =>
      rcases eq_or_ne rest ([] : List ℤ) with hr | hr
      · subst hr
        simp [listMin]
      · rw [listMin_cons w hr]
        rcases le_total w (listMin rest) with hle | hle
        · simp [min_eq_left hle]
        · rw [min_eq_right hle]
          exact List.mem_cons_of_mem _ (ih hr)

/-! ### Behaviour of the best-slot folds -/

theorem pickBest_strict_all_le (best : ℤ × List ℕ) (slots : List (ℤ × List ℕ))
    (h : ∀ s ∈ slots, s.1 ≤ best.1) : pickBest true best slots = best := by
  induction slots generalizing best with
  | nil => rfl
  | cons s rest ih =>
      have hs : s.1 ≤ best.1 := h s (List.mem_cons_self _ _)
      simp only [pickBest, List.foldl_cons, if_true, not_lt.mpr hs, if_false]
      exact ih best (fun t ht => h t (List.mem_cons_of_mem _ ht))


theorem pickBest_step (best s : ℤ × List ℕ) (rest : List (ℤ × List ℕ)) :
    pickBest true best (s :: rest)
      = pickBest true (if best.1 < s.1 then s else best) rest := by
  simp only [pickBest, List.foldl_cons, if_true]

theorem pickBest_strict (slots : List (ℤ × List ℕ)) :
    ∀ best : ℤ × List ℕ, (∃ s ∈ slots, best.1 < s.1) →
    firstIdxOf (slots.map Prod.fst) (listMax (slots.map Prod.fst)) < slots.length ∧
      pickBest true best slots
        = slots.getD (firstIdxOf (slots.map Prod.fst) (listMax (slots.map Prod.fst)))
            (0, []) := by
  induction slots with
  | nil =>
      rintro best ⟨s, hs, -⟩
      cases hs
  | cons s rest ih =>
      rintro best ⟨w, hw, hbw⟩
      by_cases hcmp : best.1 < s.1
      · by_cases hex : ∃ t ∈ rest, s.1 < t.1
        · obtain ⟨t, ht, hst⟩ := hex
          have hmapne : rest.map Prod.fst ≠ [] := by
            rintro hmap
            rw [List.map_eq_nil_iff] at hmap
            subst hmap
            cases ht
          have htM : t.1 ≤ listMax (rest.map Prod.fst) :=
            le_listMax (List.mem_map_of_mem _ ht)
          have hsM : s.1 < listMax (rest.map Prod.fst) := lt_of_lt_of_le hst htM
          have hM : listMax ((s :: rest).map Prod.fst) = listMax (rest.map Prod.fst) := by
            rw [List.map_cons, listMax_cons _ hmapne]
            exact max_eq_right (le_of_lt hsM)
          have hidx : firstIdxOf ((s :: rest).map Prod.fst) (listMax ((s :: rest).map Prod.fst))
              = firstIdxOf (rest.map Prod.fst) (listMax (rest.map Prod.fst)) + 1 := by
            rw [hM, List.map_cons]
            simp only [firstIdxOf, if_neg (ne_of_lt hsM)]
          obtain ⟨hk, heq⟩ := ih s ⟨t, ht, hst⟩
          rw [hidx]
          refine ⟨by simpa using Nat.succ_lt_succ hk, ?_⟩
          rw [pickBest_step, if_pos hcmp, heq, List.getD_cons_succ]
        · push_neg at hex
          have hall : ∀ t ∈ rest, t.1 ≤ s.1 := hex
          have hM : listMax ((s :: rest).map Prod.fst) = s.1 := by
            rcases eq_or_ne rest ([] : List (ℤ × List ℕ)) with hre | hre
            · subst hre
              rfl
            · have hmapne : rest.map Prod.fst ≠ [] := by
                simpa [List.map_eq_nil_iff] using hre
              rw [List.map_cons, listMax_cons _ hmapne]
              apply max_eq_left
              obtain ⟨u, hu, hufst⟩ := List.mem_map.mp (listMax_mem hmapne)
              exact hufst ▸ hall u hu
          have hidx : firstIdxOf ((s :: rest).map Prod.fst)
              (listMax ((s :: rest).map Prod.fst)) = 0 := by
            rw [hM, List.map_cons]
            simp [firstIdxOf]
          rw [hidx]
          refine ⟨by simp, ?_⟩
          rw [pickBest_step, if_pos hcmp, pickBest_strict_all_le s rest hall,
            List.getD_cons_zero]
      · have hsb : s.1 ≤ best.1 := not_lt.mp hcmp
        have hw' : w ∈ rest := by
          rcases List.mem_cons.mp hw with hws | hwr
          · exfalso
            rw [hws] at hbw
            exact absurd hbw (not_lt.mpr hsb)
          · exact hwr
        have hmapne : rest.map Prod.fst ≠ [] := by
          rintro hmap
          rw [List.map_eq_nil_iff] at hmap
          subst hmap
          cases hw'
        have hwM : w.1 ≤ listMax (rest.map Prod.fst) :=
          le_listMax (List.mem_map_of_mem _ hw')
        have hsM : s.1 < listMax (rest.map Prod.fst) :=
          lt_of_le_of_lt hsb (lt_of_lt_of_le hbw hwM)
        have hM : listMax ((s :: rest).map Prod.fst) = listMax (rest.map Prod.fst) := by
          rw [List.map_cons, listMax_cons _ hmapne]
          exact max_eq_right (le_of_lt hsM)
        have hidx : firstIdxOf ((s :: rest).map Prod.fst) (listMax ((s :: rest).map Prod.fst))
            = firstIdxOf (rest.map Prod.fst) (listMax (rest.map Prod.fst)) + 1 := by
          rw [hM, List.map_cons]
          simp only [firstIdxOf, if_neg (ne_of_lt hsM)]
        obtain ⟨hk, heq⟩ := ih best ⟨w, hw', hbw⟩
        rw [hidx]
        refine ⟨by simpa using Nat.succ_lt_succ hk, ?_⟩
        rw [pickBest_step, if_neg hcmp, heq, List.getD_cons_succ]

theorem pickBest_nonstrict_step (best s : ℤ × List ℕ) (rest : List (ℤ × List ℕ)) :
    pickBest false best (s :: rest)
      = pickBest false (if best.1 ≤ s.1 then s else best) rest := by
  simp only [pickBest, List.foldl_cons, Bool.false_eq_true, if_false]

theorem pickBest_nonstrict_all_lt (best : ℤ × List ℕ) (slots : List (ℤ × List ℕ))
    (h : ∀ s ∈ slots, s.1 < best.1) : pickBest false best slots = best := by
  induction slots generalizing best with
  | nil => rfl
  | cons s rest ih =>
      have hs : s.1 < best.1 := h s (List.mem_cons_self _ _)
      rw [pickBest_nonstrict_step, if_neg (not_le.mpr hs)]
      exact ih best (fun t ht => h t (List.mem_cons_of_mem _ ht))

theorem pickBest_nonstrict (slots : List (ℤ × List ℕ)) :
    ∀ best : ℤ × List ℕ, (∃ s ∈ slots, best.1 ≤ s.1) →
    lastIdxOf (slots.map Prod.fst) (listMax (slots.map Prod.fst)) < slots.length ∧
      pickBest false best slots
        = slots.getD (lastIdxOf (slots.map Prod.fst) (listMax (slots.map Prod.fst)))
            (0, []) := by
  induction slots with
  | nil =>
      rintro best ⟨s, hs, -⟩
      cases hs
  | cons s rest ih =>
      rintro best ⟨w, hw, hbw⟩
      by_cases hcmp : best.1 ≤ s.1
      · by_cases hex : ∃ t ∈ rest, s.1 ≤ t.1
        · obtain ⟨t, ht, hst⟩ := hex
          have hmapne : rest.map Prod.fst ≠ [] := by
            rintro hmap
            rw [List.map_eq_nil_iff] at hmap
            subst hmap
            cases ht
          have htM : t.1 ≤ listMax (rest.map Prod.fst) :=
            le_listMax (List.mem_map_of_mem _ ht)
          have hsM : s.1 ≤ listMax (rest.map Prod.fst) := le_trans hst htM
          have hM : listMax ((s :: rest).map Prod.fst) = listMax (rest.map Prod.fst) := by
            rw [List.map_cons, listMax_cons _ hmapne]
            exact max_eq_right hsM
          have hidx : lastIdxOf ((s :: rest).map Prod.fst) (listMax ((s :: rest).map Prod.fst))
              = lastIdxOf (rest.map Prod.fst) (listMax (rest.map Prod.fst)) + 1 := by
            rw [hM, List.map_cons]
            simp only [lastIdxOf, if_pos (listMax_mem hmapne)]
          obtain ⟨hk, heq⟩ := ih s ⟨t, ht, hst⟩
          rw [hidx]
          refine ⟨by simpa using Nat.succ_lt_succ hk, ?_⟩
          rw [pickBest_nonstrict_step, if_pos hcmp, heq, List.getD_cons_succ]
        · push_neg at hex
          have hall : ∀ t ∈ rest, t.1 < s.1 := hex
          have hM : listMax ((s :: rest).map Prod.fst) = s.1 := by
            rcases eq_or_ne rest ([] : List (ℤ × List ℕ)) with hre | hre
            · subst hre
              rfl
            · have hmapne : rest.map Prod.fst ≠ [] := by
                simpa [List.map_eq_nil_iff] using hre
              rw [List.map_cons, listMax_cons _ hmapne]
              apply max_eq_left
              obtain ⟨u, hu, hufst⟩ := List.mem_map.mp (listMax_mem hmapne)
              exact hufst ▸ le_of_lt (hall u hu)
          have hnotmem : s.1 ∉ rest.map Prod.fst := by
            intro hmem
            obtain ⟨u, hu, hufst⟩ := List.mem_map.mp hmem
            exact absurd (hufst ▸ hall u hu) (lt_irrefl _)
          have hidx : lastIdxOf ((s :: rest).map Prod.fst)
              (listMax ((s :: rest).map Prod.fst)) = 0 := by
            rw [hM, List.map_cons]
            simp only [lastIdxOf, if_neg hnotmem]
          rw [hidx]
          refine ⟨by simp, ?_⟩
          rw [pickBest_nonstrict_step, if_pos hcmp, pickBest_nonstrict_all_lt s rest hall,
            List.getD_cons_zero]
      · have hsb : s.1 < best.1 := not_le.mp hcmp
        have hw' : w ∈ rest := by
          rcases List.mem_cons.mp hw with hws | hwr
          · exfalso
            rw [hws] at hbw
            exact absurd hbw (not_le.mpr hsb)
          · exact hwr
        have hmapne : rest.map Prod.fst ≠ [] := by
          rintro hmap
          rw [List.map_eq_nil_iff] at hmap
          subst hmap
          cases hw'
        have hwM : w.1 ≤ listMax (rest.map Prod.fst) :=
          le_listMax (List.mem_map_of_mem _ hw')
        have hsM : s.1 < listMax (rest.map Prod.fst) :=
          lt_of_lt_of_le hsb (le_trans hbw hwM)
        have hM : listMax ((s :: rest).map Prod.fst) = listMax (rest.map Prod.fst) := by
          rw [List.map_cons, listMax_cons _ hmapne]
          exact max_eq_right (le_of_lt hsM)
        have hidx : lastIdxOf ((s :: rest).map Prod.fst) (listMax ((s :: rest).map Prod.fst))
            = lastIdxOf (rest.map Prod.fst) (listMax (rest.map Prod.fst)) + 1 := by
          rw [hM, List.map_cons]
          simp only [lastIdxOf, if_pos (listMax_mem hmapne)]
        obtain ⟨hk, heq⟩ := ih best ⟨w, hw', hbw⟩
        rw [hidx]
        refine ⟨by simpa using Nat.succ_lt_succ hk, ?_⟩
        rw [pickBest_nonstrict_step, if_neg hcmp, heq, List.getD_cons_succ]

theorem pickBestMin_step (best s : ℤ × List ℕ) (rest : List (ℤ × List ℕ)) :
    pickBestMin true best (s :: rest)
      = pickBestMin true (if s.1 < best.1 then s else best) rest := by
  simp only [pickBestMin, List.foldl_cons, if_true]

theorem pickBestMin_strict_all_le (best : ℤ × List ℕ) (slots : List (ℤ × List ℕ))
    (h : ∀ s ∈ slots, best.1 ≤ s.1) : pickBestMin true best slots = best := by
  induction slots generalizing best with
  | nil => rfl
  | cons s rest ih =>
      have hs : best.1 ≤ s.1 := h s (List.mem_cons_self _ _)
      rw [pickBestMin_step, if_neg (not_lt.mpr hs)]
      exact ih best (fun t ht => h t (List.mem_cons_of_mem _ ht))

theorem pickBestMin_strict (slots : List (ℤ × List ℕ)) :
    ∀ best : ℤ × List ℕ, (∃ s ∈ slots, s.1 < best.1) →
    firstIdxOf (slots.map Prod.fst) (listMin (slots.map Prod.fst)) < slots.length ∧
      pickBestMin true best slots
        = slots.getD (firstIdxOf (slots.map Prod.fst) (listMin (slots.map Prod.fst)))
            (0, []) := by
  induction slots with
  | nil =>
      rintro best ⟨s, hs, -⟩
      cases hs
  | cons s rest ih =>
      rintro best ⟨w, hw, hbw⟩
      by_cases hcmp : s.1 < best.1
      · by_cases hex : ∃ t ∈ rest, t.1 < s.1
        · obtain ⟨t, ht, hst⟩ := hex
          have hmapne : rest.map Prod.fst ≠ [] := by
            rintro hmap
            rw [List.map_eq_nil_iff] at hmap
            subst hmap
            cases ht
          have htM : listMin (rest.map Prod.fst) ≤ t.1 :=
            listMin_le (List.mem_map_of_mem _ ht)
          have hsM : listMin (rest.map Prod.fst) < s.1 := lt_of_le_of_lt htM hst
          have hM : listMin ((s :: rest).map Prod.fst) = listMin (rest.map Prod.fst) := by
            rw [List.map_cons, listMin_cons _ hmapne]
            exact min_eq_right (le_of_lt hsM)
          have hidx : firstIdxOf ((s :: rest).map Prod.fst) (listMin ((s :: rest).map Prod.fst))
              = firstIdxOf (rest.map Prod.fst) (listMin (rest.map Prod.fst)) + 1 := by
            rw [hM, List.map_cons]
            simp only [firstIdxOf, if_neg (ne_of_gt hsM)]
          obtain ⟨hk, heq⟩ := ih s ⟨t, ht, hst⟩
          rw [hidx]
          refine ⟨by simpa using Nat.succ_lt_succ hk, ?_⟩
          rw [pickBestMin_step, if_pos hcmp, heq, List.getD_cons_succ]
        · push_neg at hex
          have hall : ∀ t ∈ rest, s.1 ≤ t.1 := hex
          have hM : listMin ((s :: rest).map Prod.fst) = s.1 := by
            rcases eq_or_ne rest ([] : List (ℤ × List ℕ)) with hre | hre
            · subst hre
              rfl
            · have hmapne : rest.map Prod.fst ≠ [] := by
                simpa [List.map_eq_nil_iff] using hre
              rw [List.map_cons, listMin_cons _ hmapne]
              apply min_eq_left
              obtain ⟨u, hu, hufst⟩ := List.mem_map.mp (listMin_mem hmapne)
              exact hufst ▸ hall u hu
          have hidx : firstIdxOf ((s :: rest).map Prod.fst)
              (listMin ((s :: rest).map Prod.fst)) = 0 := by
            rw [hM, List.map_cons]
            simp [firstIdxOf]
          rw [hidx]
          refine ⟨by simp, ?_⟩
          rw [pickBestMin_step, if_pos hcmp, pickBestMin_strict_all_le s rest hall,
            List.getD_cons_zero]
      · have hsb : best.1 ≤ s.1 := not_lt.mp hcmp
        have hw' : w ∈ rest := by
          rcases List.mem_cons.mp hw with hws | hwr
          · exfalso
            rw [hws] at hbw
            exact absurd hbw (not_lt.mpr hsb)
          · exact hwr
        have hmapne : rest.map Prod.fst ≠ [] := by
          rintro hmap
          rw [List.map_eq_nil_iff] at hmap
          subst hmap
          cases hw'
        have hwM : listMin (rest.map Prod.fst) ≤ w.1 :=
          listMin_le (List.mem_map_of_mem _ hw')
        have hsM : listMin (rest.map Prod.fst) < s.1 :=
          lt_of_lt_of_le (lt_of_le_of_lt hwM hbw) hsb
        have hM : listMin ((s :: rest).map Prod.fst) = listMin (rest.map Prod.fst) := by
          rw [List.map_cons, listMin_cons _ hmapne]
          exact min_eq_right (le_of_lt hsM)
        have hidx : firstIdxOf ((s :: rest).map Prod.fst) (listMin ((s :: rest).map Prod.fst))
            = firstIdxOf (rest.map Prod.fst) (listMin (rest.map Prod.fst)) + 1 := by
          rw [hM, List.map_cons]
          simp only [firstIdxOf, if_neg (ne_of_gt hsM)]
        obtain ⟨hk, heq⟩ := ih best ⟨w, hw', hbw⟩
        rw [hidx]
        refine ⟨by simpa using Nat.succ_lt_succ hk, ?_⟩
        rw [pickBestMin_step, if_neg hcmp, heq, List.getD_cons_succ]

theorem pickBestMin_nonstrict_step (best s : ℤ × List ℕ) (rest : List (ℤ × List ℕ)) :
    pickBestMin false best (s :: rest)
      = pickBestMin false (if s.1 ≤ best.1 then s else best) rest := by
  simp only [pickBestMin, List.foldl_cons, Bool.false_eq_true, if_false]

theorem pickBestMin_nonstrict_all_lt (best : ℤ × List ℕ) (slots : List (ℤ × List ℕ))
    (h : ∀ s ∈ slots, best.1 < s.1) : pickBestMin false best slots = best := by
  induction slots generalizing best with
  | nil => rfl
  | cons s rest ih =>
      have hs : best.1 < s.1 := h s (List.mem_cons_self _ _)
      rw [pickBestMin_nonstrict_step, if_neg (not_le.mpr hs)]
      exact ih best (fun t ht => h t (List.mem_cons_of_mem _ ht))

theorem pickBestMin_nonstrict (slots : List (ℤ × List ℕ)) :
    ∀ best : ℤ × List ℕ, (∃ s ∈ slots, s.1 ≤ best.1) →
    lastIdxOf (slots.map Prod.fst) (listMin (slots.map Prod.fst)) < slots.length ∧
      pickBestMin false best slots
        = slots.getD (lastIdxOf (slots.map Prod.fst) (listMin (slots.map Prod.fst)))
            (0, []) := by
  induction slots with
  | nil =>
      rintro best ⟨s, hs, -⟩
      cases hs
  | cons s rest ih =>
      rintro best ⟨w, hw, hbw⟩
      by_cases hcmp : s.1 ≤ best.1
      · by_cases hex : ∃ t ∈ rest, t.1 ≤ s.1
        · obtain ⟨t, ht, hst⟩ := hex
          have hmapne : rest.map Prod.fst ≠ [] := by
            rintro hmap
            rw [List.map_eq_nil_iff] at hmap
            subst hmap
            cases ht
          have htM : listMin (rest.map Prod.fst) ≤ t.1 :=
            listMin_le (List.mem_map_of_mem _ ht)
          have hsM : listMin (rest.map Prod.fst) ≤ s.1 := le_trans htM hst
          have hM : listMin ((s :: rest).map Prod.fst) = listMin (rest.map Prod.fst) := by
            rw [List.map_cons, listMin_cons _ hmapne]
            exact min_eq_right hsM
          have hidx : lastIdxOf ((s :: rest).map Prod.fst) (listMin ((s :: rest).map Prod.fst))
              = lastIdxOf (rest.map Prod.fst) (listMin (rest.map Prod.fst)) + 1 := by
            rw [hM, List.map_cons]
            simp only [lastIdxOf, if_pos (listMin_mem hmapne)]
          obtain ⟨hk, heq⟩ := ih s ⟨t, ht, hst⟩
          rw [hidx]
          refine ⟨by simpa using Nat.succ_lt_succ hk, ?_⟩
          rw [pickBestMin_nonstrict_step, if_pos hcmp, heq, List.getD_cons_succ]
        · push_neg at hex
          have hall : ∀ t ∈ rest, s.1 < t.1 := hex
          have hM : listMin ((s :: rest).map Prod.fst) = s.1 := by
            rcases eq_or_ne rest ([] : List (ℤ × List ℕ)) with hre | hre
            · subst hre
              rfl
            · have hmapne : rest.map Prod.fst ≠ [] := by
                simpa [List.map_eq_nil_iff] using hre
              rw [List.map_cons, listMin_cons _ hmapne]
              apply min_eq_left
              obtain ⟨u, hu, hufst⟩ := List.mem_map.mp (listMin_mem hmapne)
              exact hufst ▸ le_of_lt (hall u hu)
          have hnotmem : s.1 ∉ rest.map Prod.fst := by
            intro hmem
            obtain ⟨u, hu, hufst⟩ := List.mem_map.mp hmem
            exact absurd (hufst ▸ hall u hu) (lt_irrefl _)
          have hidx : lastIdxOf ((s :: rest).map Prod.fst)
              (listMin ((s :: rest).map Prod.fst)) = 0 := by
            rw [hM, List.map_cons]
            simp only [lastIdxOf, if_neg hnotmem]
          rw [hidx]
          refine ⟨by simp, ?_⟩
          rw [pickBestMin_nonstrict_step, if_pos hcmp,
            pickBestMin_nonstrict_all_lt s rest hall, List.getD_cons_zero]
      · have hsb : best.1 < s.1 := not_le.mp hcmp
        have hw' : w ∈ rest := by
          rcases List.mem_cons.mp hw with hws | hwr
          · exfalso
            rw [hws] at hbw
            exact absurd hbw (not_le.mpr hsb)
          · exact hwr
        have hmapne : rest.map Prod.fst ≠ [] := by
          rintro hmap
          rw [List.map_eq_nil_iff] at hmap
          subst hmap
          cases hw'
        have hwM : listMin (rest.map Prod.fst) ≤ w.1 :=
          listMin_le (List.mem_map_of_mem _ hw')
        have hsM : listMin (rest.map Prod.fst) < s.1 :=
          lt_of_le_of_lt (le_trans hwM hbw) hsb
        have hM : listMin ((s :: rest).map Prod.fst) = listMin (rest.map Prod.fst) := by
          rw [List.map_cons, listMin_cons _ hmapne]
          exact min_eq_right (le_of_lt hsM)
        have hidx : lastIdxOf ((s :: rest).map Prod.fst) (listMin ((s :: rest).map Prod.fst))
            = lastIdxOf (rest.map Prod.fst) (listMin (rest.map Prod.fst)) + 1 := by
          rw [hM, List.map_cons]
          simp only [lastIdxOf, if_pos (listMin_mem hmapne)]
        obtain ⟨hk, heq⟩ := ih best ⟨w, hw', hbw⟩
        rw [hidx]
        refine ⟨by simpa using Nat.succ_lt_succ hk, ?_⟩
        rw [pickBestMin_nonstrict_step, if_neg hcmp, heq, List.getD_cons_succ]

/-! ### The line scans are best-slot folds over the enumerated line -/

theorem maxScanGo_eq_pickBest (first : Bool) (pos : List ℕ) (dim : ℕ) :
    ∀ (l : List ℤ) (ii : ℕ) (acc : ℤ × List ℕ),
      maxScanGo first pos dim l ii acc
        = pickBest first acc
            ((List.enumFrom ii l).map (fun p => (p.2, updCoord pos dim p.1))) := by
  intro l
  induction l with
  | nil => intro ii acc; rfl
  | cons v rest ih =>
      intro ii acc
      simp only [maxScanGo]
      rw [ih]
      rfl

theorem minScanGo_eq_pickBestMin (first : Bool) (pos : List ℕ) (dim : ℕ) :
    ∀ (l : List ℤ) (ii : ℕ) (acc : ℤ × List ℕ),
      minScanGo first pos dim l ii acc
        = pickBestMin first acc
            ((List.enumFrom ii l).map (fun p => (p.2, updCoord pos dim p.1))) := by
  intro l
  induction l with
  | nil => intro ii acc; rfl
  | cons v rest ih =>
      intro ii acc
      simp only [minScanGo]
      rw [ih]
      rfl

theorem firstIdxOf_lt_length {l : List ℤ} {m : ℤ} (h : m ∈ l) :
    firstIdxOf l m < l.length := by
  induction l with
  | nil => cases h
  | cons v rest ih =>
      by_cases hv : v = m
      · simp [firstIdxOf, hv]
      · have hm : m ∈ rest := (List.mem_cons.mp h).resolve_left (fun he => hv he.symm)
        simp only [firstIdxOf, if_neg hv, List.length_cons]
        exact Nat.succ_lt_succ (ih hm)

theorem getD_firstIdxOf {l : List ℤ} {m : ℤ} (h : m ∈ l) :
    l.getD (firstIdxOf l m) 0 = m := by
  induction l with
  | nil => cases h
  | cons v rest ih =>
      by_cases hv : v = m
      · simp [firstIdxOf, hv]
      · have hm : m ∈ rest := (List.mem_cons.mp h).resolve_left (fun he => hv he.symm)
        simp only [firstIdxOf, if_neg hv, List.getD_cons_succ]
        exact ih hm

theorem lastIdxOf_lt_length {l : List ℤ} {m : ℤ} (h : m ∈ l) :
    lastIdxOf l m < l.length := by
  induction l with
  | nil => cases h
  | cons v rest ih =>
      by_cases hr : m ∈ rest
      · simp only [lastIdxOf, if_pos hr, List.length_cons]
        exact Nat.succ_lt_succ (ih hr)
      · simp [lastIdxOf, hr]

theorem getD_lastIdxOf {l : List ℤ} {m : ℤ} (h : m ∈ l) :
    l.getD (lastIdxOf l m) 0 = m := by
  induction l with
  | nil => cases h
  | cons v rest ih =>
      by_cases hr : m ∈ rest
      · simp only [lastIdxOf, if_pos hr, List.getD_cons_succ]
        exact ih hr
      · have hv : v = m := by
          rcases List.mem_cons.mp h with he | he
          · exact he.symm
          · exact absurd he hr
        simp [lastIdxOf, hr, hv]

/-! ### Line-level results for MaxPixel / MinPixel -/

theorem enumMap_fst (pos : List ℕ) (dim : ℕ) (l : List ℤ) (ii : ℕ) :
    ((List.enumFrom ii l).map (fun p => (p.2, updCoord pos dim p.1))).map Prod.fst = l := by
  rw [List.map_map]
  have : (Prod.fst ∘ fun p : ℕ × ℤ => (p.2, updCoord pos dim p.1)) = Prod.snd := rfl
  rw [this, List.enumFrom_map_snd]

theorem enumMap_getD (pos : List ℕ) (dim : ℕ) (l : List ℤ) (k : ℕ) (hk : k < l.length) :
    ((List.enumFrom 0 l).map (fun p => (p.2, updCoord pos dim p.1))).getD k (0, [])
      = (l.getD k 0, updCoord pos dim k) := by
  have hk1 : k < ((List.enumFrom 0 l).map
      (fun p => (p.2, updCoord pos dim p.1))).length := by
    simpa using hk
  have hk2 : k < (List.enumFrom 0 l).length := by simpa using hk
  rw [List.getD_eq_getElem _ _ hk1, List.getElem_map, List.getElem_enumFrom,
    List.getD_eq_getElem _ _ hk]
  simp

theorem maxPixelLine_strict (lowest : ℤ) (pos : List ℕ) (dim : ℕ) (l : List ℤ)
    (hex : ∃ v ∈ l, lowest < v) :
    maxPixelLine true lowest pos dim l
      = (listMax l, updCoord pos dim (firstIdxOf l (listMax l))) := by
  have hlne : l ≠ [] := by rintro rfl; obtain ⟨v, hv, -⟩ := hex; cases hv
  have hfst := enumMap_fst pos dim l 0
  obtain ⟨v, hv, hlv⟩ := hex
  obtain ⟨s, hs, hsv⟩ := List.mem_map.mp (hfst ▸ hv)
  have key := pickBest_strict _ (lowest, List.replicate pos.length 0)
    ⟨s, hs, by rw [hsv]; exact hlv⟩
  rw [hfst] at key
  obtain ⟨hk, heq⟩ := key
  rw [maxPixelLine, maxScanGo_eq_pickBest, heq,
    enumMap_getD pos dim l _ (by simpa using hk),
    getD_firstIdxOf (listMax_mem hlne)]

theorem maxPixelLine_nonstrict (lowest : ℤ) (pos : List ℕ) (dim : ℕ) (l : List ℤ)
    (hlne : l ≠ []) (hbound : ∀ v ∈ l, lowest ≤ v) :
    maxPixelLine false lowest pos dim l
      = (listMax l, updCoord pos dim (lastIdxOf l (listMax l))) := by
  have hfst := enumMap_fst pos dim l 0
  obtain ⟨v, hv⟩ := List.exists_mem_of_ne_nil l hlne
  obtain ⟨s, hs, hsv⟩ := List.mem_map.mp (hfst ▸ hv)
  have key := pickBest_nonstrict _ (lowest, List.replicate pos.length 0)
    ⟨s, hs, by rw [hsv]; exact hbound v hv⟩
  rw [hfst] at key
  obtain ⟨hk, heq⟩ := key
  rw [maxPixelLine, maxScanGo_eq_pickBest, heq,
    enumMap_getD pos dim l _ (by simpa using hk),
    getD_lastIdxOf (listMax_mem hlne)]

theorem minPixelLine_strict (highest : ℤ) (pos : List ℕ) (dim : ℕ) (l : List ℤ)
    (hex : ∃ v ∈ l, v < highest) :
    minPixelLine true highest pos dim l
      = (listMin l, updCoord pos dim (firstIdxOf l (listMin l))) := by
  have hlne : l ≠ [] := by rintro rfl; obtain ⟨v, hv, -⟩ := hex; cases hv
  have hfst := enumMap_fst pos dim l 0
  obtain ⟨v, hv, hlv⟩ := hex
  obtain ⟨s, hs, hsv⟩ := List.mem_map.mp (hfst ▸ hv)
  have key := pickBestMin_strict _ (highest, List.replicate pos.length 0)
    ⟨s, hs, by rw [hsv]; exact hlv⟩
  rw [hfst] at key
  obtain ⟨hk, heq⟩ := key
  rw [minPixelLine, minScanGo_eq_pickBestMin, heq,
    enumMap_getD pos dim l _ (by simpa using hk),
    getD_firstIdxOf (listMin_mem hlne)]

theorem minPixelLine_nonstrict (highest : ℤ) (pos : List ℕ) (dim : ℕ) (l : List ℤ)
    (hlne : l ≠ []) (hbound : ∀ v ∈ l, v ≤ highest) :
    minPixelLine false highest pos dim l
      = (listMin l, updCoord pos dim (lastIdxOf l (listMin l))) := by
  have hfst := enumMap_fst pos dim l 0
  obtain ⟨v, hv⟩ := List.exists_mem_of_ne_nil l hlne
  obtain ⟨s, hs, hsv⟩ := List.mem_map.mp (hfst ▸ hv)
  have key := pickBestMin_nonstrict _ (highest, List.replicate pos.length 0)
    ⟨s, hs, by rw [hsv]; exact hbound v hv⟩
  rw [hfst] at key
  obtain ⟨hk, heq⟩ := key
  rw [minPixelLine, minScanGo_eq_pickBestMin, heq,
    enumMap_getD pos dim l _ (by simpa using hk),
    getD_lastIdxOf (listMin_mem hlne)]

/-! ### Whole-call results for a one-line, one-thread scan -/

theorem maxPixelRun1_strict (lowest : ℤ) (pos : List ℕ) (dim : ℕ) (l : List ℤ)
    (hex : ∃ v ∈ l, lowest < v) :
    maxPixelRun1 true lowest pos dim l = updCoord pos dim (firstIdxOf l (listMax l)) := by
  obtain ⟨v, hv, hlv⟩ := hex
  have hM : lowest < listMax l := lt_of_lt_of_le hlv (le_listMax hv)
  rw [maxPixelRun1, maxPixelLine_strict _ _ _ _ ⟨v, hv, hlv⟩, maxSlotUpd]
  simp [maxGetResult, pickBest, hM]

theorem maxPixelRun1_nonstrict (lowest : ℤ) (pos : List ℕ) (dim : ℕ) (l : List ℤ)
    (hlne : l ≠ []) (hbound : ∀ v ∈ l, lowest ≤ v) :
    maxPixelRun1 false lowest pos dim l = updCoord pos dim (lastIdxOf l (listMax l)) := by
  obtain ⟨v, hv⟩ := List.exists_mem_of_ne_nil l hlne
  have hM : lowest ≤ listMax l := le_trans (hbound v hv) (le_listMax hv)
  rw [maxPixelRun1, maxPixelLine_nonstrict _ _ _ _ hlne hbound, maxSlotUpd]
  simp [maxGetResult, pickBest, hM]

theorem minPixelRun1_strict (highest : ℤ) (pos : List ℕ) (dim : ℕ) (l : List ℤ)
    (hex : ∃ v ∈ l, v < highest) :
    minPixelRun1 true highest pos dim l = updCoord pos dim (firstIdxOf l (listMin l)) := by
  obtain ⟨v, hv, hlv⟩ := hex
  have hM : listMin l < highest := lt_of_le_of_lt (listMin_le hv) hlv
  rw [minPixelRun1, minPixelLine_strict _ _ _ _ ⟨v, hv, hlv⟩, minSlotUpd]
  simp [minGetResult, pickBestMin, hM]

theorem minPixelRun1_nonstrict (highest : ℤ) (pos : List ℕ) (dim : ℕ) (l : List ℤ)
    (hlne : l ≠ []) (hbound : ∀ v ∈ l, v ≤ highest) :
    minPixelRun1 false highest pos dim l = updCoord pos dim (lastIdxOf l (listMin l)) := by
  obtain ⟨v, hv⟩ := List.exists_mem_of_ne_nil l hlne
  have hM : listMin l ≤ highest := le_trans (listMin_le hv) (hbound v hv)
  rw [minPixelRun1, minPixelLine_nonstrict _ _ _ _ hlne hbound, minSlotUpd]
  simp [minGetResult, pickBestMin, hM]

/-! ### Merge-identity lemmas for never-pushed thread slots (claim C7) -/

theorem pickBest_append (first : Bool) (best : ℤ × List ℕ) (l1 l2 : List (ℤ × List ℕ)) :
    pickBest first best (l1 ++ l2) = pickBest first (pickBest first best l1) l2 := by
  simp [pickBest, List.foldl_append]

theorem pickBest_fst_le (first : Bool) (slots : List (ℤ × List ℕ)) :
    ∀ best : ℤ × List ℕ, best.1 ≤ (pickBest first best slots).1 := by
  induction slots with
  | nil => intro best; exact le_refl _
  | cons s rest ih =>
      intro best
      have hstep : pickBest first best (s :: rest)
          = pickBest first (if (if first then best.1 < s.1 else best.1 ≤ s.1)
              then s else best) rest := by
        simp only [pickBest, List.foldl_cons]
      rw [hstep]
      by_cases hc : if first then best.1 < s.1 else best.1 ≤ s.1
      · rw [if_pos hc]
        refine le_trans ?_ (ih s)
        cases first
        · simpa using hc
        · simpa using le_of_lt hc
      · rw [if_neg hc]
        exact ih best

theorem pickBest_strict_skip (best : ℤ × List ℕ) (lowest : ℤ) (c : List ℕ)
    (r1 r2 : List (ℤ × List ℕ)) (hb : lowest ≤ best.1) :
    pickBest true best (r1 ++ (lowest, c) :: r2) = pickBest true best (r1 ++ r2) := by
  rw [pickBest_append, pickBest_append, pickBest_step]
  rw [if_neg (not_lt.mpr (le_trans hb (pickBest_fst_le true r1 best)))]

theorem pickBest_nonstrict_fst_congr (slots : List (ℤ × List ℕ)) :
    ∀ b1 b2 : ℤ × List ℕ, b1.1 = b2.1 →
      (pickBest false b1 slots).1 = (pickBest false b2 slots).1 := by
  induction slots with
  | nil => intro b1 b2 h; exact h
  | cons s rest ih =>
      intro b1 b2 h
      rw [pickBest_nonstrict_step, pickBest_nonstrict_step, ← h]
      by_cases hc : b1.1 ≤ s.1
      · rw [if_pos hc, if_pos hc]
      · rw [if_neg hc, if_neg hc]
        exact ih b1 b2 h

theorem pickBest_nonstrict_skip_fst (best : ℤ × List ℕ) (lowest : ℤ) (c : List ℕ)
    (r1 r2 : List (ℤ × List ℕ)) (hb : lowest ≤ best.1) :
    (pickBest false best (r1 ++ (lowest, c) :: r2)).1
      = (pickBest false best (r1 ++ r2)).1 := by
  rw [pickBest_append, pickBest_append, pickBest_nonstrict_step]
  have hmono : best.1 ≤ (pickBest false best r1).1 := pickBest_fst_le false r1 best
  by_cases hc : (pickBest false best r1).1 ≤ lowest
  · rw [if_pos hc]
    exact pickBest_nonstrict_fst_congr r2 _ _ (le_antisymm (le_trans hb hmono) hc)
  · rw [if_neg hc]

theorem pickBest_nonstrict_skip (best : ℤ × List ℕ) (lowest : ℤ) (c : List ℕ)
    (r1 r2 : List (ℤ × List ℕ)) (hb : lowest < best.1) :
    pickBest false best (r1 ++ (lowest, c) :: r2) = pickBest false best (r1 ++ r2) := by
  rw [pickBest_append, pickBest_append, pickBest_nonstrict_step]
  rw [if_neg (not_le.mpr (lt_of_lt_of_le hb (pickBest_fst_le false r1 best)))]

theorem pickBestMin_append (first : Bool) (best : ℤ × List ℕ) (l1 l2 : List (ℤ × List ℕ)) :
    pickBestMin first best (l1 ++ l2) = pickBestMin first (pickBestMin first best l1) l2 := by
  simp [pickBestMin, List.foldl_append]

theorem pickBestMin_fst_le (first : Bool) (slots : List (ℤ × List ℕ)) :
    ∀ best : ℤ × List ℕ, (pickBestMin first best slots).1 ≤ best.1 := by
  induction slots with
  | nil => intro best; exact le_refl _
  | cons s rest ih =>
      intro best
      have hstep : pickBestMin first best (s :: rest)
          = pickBestMin first (if (if first then s.1 < best.1 else s.1 ≤ best.1)
              then s else best) rest := by
        simp only [pickBestMin, List.foldl_cons]
      rw [hstep]
      by_cases hc : if first then s.1 < best.1 else s.1 ≤ best.1
      · rw [if_pos hc]
        refine le_trans (ih s) ?_
        cases first
        · simpa using hc
        · simpa using le_of_lt hc
      · rw [if_neg hc]
        exact ih best

theorem pickBestMin_strict_skip (best : ℤ × List ℕ) (highest : ℤ) (c : List ℕ)
    (r1 r2 : List (ℤ × List ℕ)) (hb : best.1 ≤ highest) :
    pickBestMin true best (r1 ++ (highest, c) :: r2) = pickBestMin true best (r1 ++ r2) := by
  rw [pickBestMin_append, pickBestMin_append, pickBestMin_step]
  rw [if_neg (not_lt.mpr (le_trans (pickBestMin_fst_le true r1 best) hb))]

theorem pickBestMin_nonstrict_fst_congr (slots : List (ℤ × List ℕ)) :
    ∀ b1 b2 : ℤ × List ℕ, b1.1 = b2.1 →
      (pickBestMin false b1 slots).1 = (pickBestMin false b2 slots).1 := by
  induction slots with
  | nil => intro b1 b2 h; exact h
  | cons s rest ih =>
      intro b1 b2 h
      rw [pickBestMin_nonstrict_step, pickBestMin_nonstrict_step, ← h]
      by_cases hc : s.1 ≤ b1.1
      · rw [if_pos hc, if_pos hc]
      · rw [if_neg hc, if_neg hc]
        exact ih b1 b2 h

theorem pickBestMin_nonstrict_skip_fst (best : ℤ × List ℕ) (highest : ℤ) (c : List ℕ)
    (r1 r2 : List (ℤ × List ℕ)) (hb : best.1 ≤ highest) :
    (pickBestMin false best (r1 ++ (highest, c) :: r2)).1
      = (pickBestMin false best (r1 ++ r2)).1 := by
  rw [pickBestMin_append, pickBestMin_append, pickBestMin_nonstrict_step]
  have hmono : (pickBestMin false best r1).1 ≤ best.1 := pickBestMin_fst_le false r1 best
  by_cases hc : highest ≤ (pickBestMin false best r1).1
  · rw [if_pos hc]
    exact pickBestMin_nonstrict_fst_congr r2 _ _ (le_antisymm hc (le_trans hmono hb))
  · rw [if_neg hc]

theorem pickBestMin_nonstrict_skip (best : ℤ × List ℕ) (highest : ℤ) (c : List ℕ)
    (r1 r2 : List (ℤ × List ℕ)) (hb : best.1 < highest) :
    pickBestMin false best (r1 ++ (highest, c) :: r2)
      = pickBestMin false best (r1 ++ r2) := by
  rw [pickBestMin_append, pickBestMin_append, pickBestMin_nonstrict_step]
  rw [if_neg (not_le.mpr (lt_of_le_of_lt (pickBestMin_fst_le false r1 best) hb))]

/-- A fully-masked line leaves the thread-local state of
`dip__MaxPixel::Filter` untouched. -/
theorem maxScanGoMasked_all_false (first : Bool) (pos : List ℕ) (dim : ℕ) :
    ∀ (l : List (Bool × ℤ)) (ii : ℕ) (acc : ℤ × List ℕ),
      (∀ p ∈ l, p.1 = false) →
      maxScanGoMasked first pos dim l ii acc = acc := by
  intro l
  induction l with
  | nil => intro ii acc _; rfl
  | cons p rest ih =>
      intro ii acc hmask
      have hp : p.1 = false := hmask p (List.mem_cons_self _ _)
      simp only [maxScanGoMasked, hp]
      rw [if_neg (by simp)]
      exact ih _ _ (fun q hq => hmask q (List.mem_cons_of_mem _ hq))

/-! ## CumulativeSum  (CumSumFilter lines 301–321, CumulativeSum lines 325–344) -/

/-- Loop of `CumSumFilter::Filter` (lines 313–319): running sum written to
the output at every position. -/
def cumSumGo (sum : ℚ) : List ℚ → List ℚ
  | [] => []
  | v :: rest => (sum + v) :: cumSumGo (sum + v) rest

/-- One separable pass of `CumSumFilter` over a line, `sum` initialised
to `0`. -/
def cumSumLine (l : List ℚ) : List ℚ :=
  cumSumGo 0 l

/-- Modelled from the spec: `dip::Select` (called at line 337 of
`CumulativeSum`; its definition is not among the given sources) replaces
every masked-out position by the caller-provided value, here
`Image( 0, dataType )`, i.e. the additive identity `0`. -/
def selectZero (mask : List Bool) (l : List ℚ) : List ℚ :=
  List.zipWith (fun m v => if m then v else 0) mask l

/-- `CumulativeSum` with a forged mask (lines 336–339): `Select` to zero
first, then the separable cumulative-sum pass. -/
def cumulativeSumMasked (mask : List Bool) (l : List ℚ) : List ℚ :=
  cumSumLine (selectZero mask l)

theorem cumSumGo_getD (l : List ℚ) :
    ∀ (sum : ℚ) (i : ℕ), i < l.length →
      (cumSumGo sum l).getD i 0 = sum + (l.take (i + 1)).sum := by
  induction l with
  | nil => intro sum i h; cases h
  | cons v rest ih =>
      intro sum i h
      cases i with
      | zero => simp [cumSumGo]
      | succ j =>
          simp only [cumSumGo, List.getD_cons_succ, List.take_succ_cons, List.sum_cons]
          rw [ih (sum + v) j (by simpa using h)]
          ring

theorem cumSumLine_getD (l : List ℚ) (i : ℕ) (h : i < l.length) :
    (cumSumLine l).getD i 0 = (l.take (i + 1)).sum := by
  rw [cumSumLine, cumSumGo_getD l 0 i h, zero_add]

/-! ## Precondition checks and error propagation
(`DIP_THROW_IF` calls at lines 81–82, 276–277, 288–289, 331–332, 654–655,
727–728)

A `dip::Image` is abstracted by the three properties the checks consult;
a throwing call is an `Except.error` carrying the error constant, produced
before any line filter runs, so an erroneous call yields no result at
all. -/

inductive DipError where
  | imageNotForged
  | imageNotScalar
  | dimensionalityNotSupported
  deriving DecidableEq, Repr

structure ImageMeta where
  forged : Bool
  scalar : Bool
  dims : ℕ
  deriving DecidableEq, Repr

/-- The two `DIP_THROW_IF` checks shared by `Count`, `MaximumPixel`,
`MinimumPixel`, `CenterOfMass` and `Moments`, in source order:
`!IsForged() → IMAGE_NOT_FORGED`, then `!IsScalar() → IMAGE_NOT_SCALAR`. -/
def forgedScalarChecks (img : ImageMeta) : Except DipError Unit :=
  if img.forged = false then .error .imageNotForged
  else if img.scalar = false then .error .imageNotScalar
  else .ok ()

/-- The checks of `CumulativeSum` (lines 331–332): `!IsForged()`, then
`Dimensionality() < 1 → DIMENSIONALITY_NOT_SUPPORTED`. -/
def cumulativeSumChecks (img : ImageMeta) : Except DipError Unit :=
  if img.forged = false then .error .imageNotForged
  else if img.dims < 1 then .error .dimensionalityNotSupported
  else .ok ()

/-- `bool first = positionFlag == "first";` (lines 278 and 290): the only
use made of the flag string. -/
def parsePositionFlag (positionFlag : String) : Bool :=
  positionFlag == "first"

/-- `Count` (lines 77–86): checks, then the scan. -/
def countRun (img : ImageMeta) (line : List Bool) : Except DipError ℕ :=
  match forgedScalarChecks img with
  | .error e => .error e
  | .ok _ => .ok (countLine line)

/-- `MaximumPixel` (lines 275–285) on a one-line image with one thread:
checks, flag parse, scan, `GetResult`. -/
def maximumPixelRun (img : ImageMeta) (positionFlag : String) (lowest : ℤ)
    (pos : List ℕ) (dim : ℕ) (line : List ℤ) : Except DipError (List ℕ) :=
  match forgedScalarChecks img with
  | .error e => .error e
  | .ok _ => .ok (maxPixelRun1 (parsePositionFlag positionFlag) lowest pos dim line)

/-- `MinimumPixel` (lines 287–297) on a one-line image with one thread. -/
def minimumPixelRun (img : ImageMeta) (positionFlag : String) (highest : ℤ)
    (pos : List ℕ) (dim : ℕ) (line : List ℤ) : Except DipError (List ℕ) :=
  match forgedScalarChecks img with
  | .error e => .error e
  | .ok _ => .ok (minPixelRun1 (parsePositionFlag positionFlag) highest pos dim line)

/-- `CenterOfMass` (lines 650–661) on a one-line image with one thread. -/
def centerOfMassRun (img : ImageMeta) (nD : ℕ)
    (samples : List ((Fin nD → ℚ) × ℚ)) : Except DipError (Fin nD → ℚ) :=
  match forgedScalarChecks img with
  | .error e => .error e
  | .ok _ => .ok (comGetResult nD (comLineAcc nD samples) [])

/-- `Moments` (lines 723–734) on a one-line image with one thread. -/
def momentsRun (img : ImageMeta) (nD : ℕ)
    (samples : List ((Fin nD → ℚ) × ℚ)) : Except DipError (MomentAccumulator nD) :=
  match forgedScalarChecks img with
  | .error e => .error e
  | .ok _ => .ok (momGetResult (momOfList nD samples) [])

/-- `CumulativeSum` (lines 325–344) along one dimension of a one-line
image: checks, optional `Select`, separable pass. -/
def cumulativeSumRun (img : ImageMeta) (mask : Option (List Bool))
    (line : List ℚ) : Except DipError (List ℚ) :=
  match cumulativeSumChecks img with
  | .error e => .error e
  | .ok _ =>
      match mask with
      | some m => .ok (cumulativeSumMasked m line)
      | none => .ok (cumSumLine line)

/-- Masked loop of `dip__MinPixel::Filter` (lines 198–218). -/
def minScanGoMasked (first : Bool) (position : List ℕ) (dim : ℕ) :
    List (Bool × ℤ) → ℕ → ℤ × List ℕ → ℤ × List ℕ
  | [], _, acc => acc
  | p :: rest, ii, acc =>
      minScanGoMasked first position dim rest (ii + 1)
        (if p.1 ∧ (if first then p.2 < acc.1 else p.2 ≤ acc.1)
         then (p.2, updCoord position dim ii) else acc)

theorem minScanGoMasked_all_false (first : Bool) (pos : List ℕ) (dim : ℕ) :
    ∀ (l : List (Bool × ℤ)) (ii : ℕ) (acc : ℤ × List ℕ),
      (∀ p ∈ l, p.1 = false) →
      minScanGoMasked first pos dim l ii acc = acc := by
  intro l
  induction l with
  | nil => intro ii acc _; rfl
  | cons p rest ih =>
      intro ii acc hmask
      have hp : p.1 = false := hmask p (List.mem_cons_self _ _)
      simp only [minScanGoMasked, hp]
      rw [if_neg (by simp)]
      exact ih _ _ (fun q hq => hmask q (List.mem_cons_of_mem _ hq))

/-! ### Unrolled two-at-a-time loop versus the simple loop (claim C8) -/

theorem minMax_push2_eq (a : MinMaxAccumulator) (x y : ℚ) :
    a.push2 x y = (a.push x).push y := by
  simp [MinMaxAccumulator.push2, MinMaxAccumulator.push, min_assoc, max_assoc]

theorem minMaxUnrolled_eq_foldl :
    ∀ (l : List ℚ) (a : MinMaxAccumulator),
      minMaxUnrolled a l = l.foldl MinMaxAccumulator.push a
  | [], _ => rfl
  | [_], _ => rfl
  | x :: y :: rest, a => by
      rw [minMaxUnrolled, minMax_push2_eq, List.foldl_cons, List.foldl_cons]
      exact minMaxUnrolled_eq_foldl rest ((a.push x).push y)

/-! ### CenterOfMass result characterisation (claim C4) -/

theorem comDivide_zero_mass (nD : ℕ) (out : Fin (nD + 1) → ℚ)
    (h : out (Fin.last nD) = 0) : comDivide nD out = fun _ => 0 := by
  simp [comDivide, h]

theorem comRun_zero_mass (nD : ℕ) (samples : List ((Fin nD → ℚ) × ℚ))
    (h : (samples.map Prod.snd).sum = 0) :
    comDivide nD (comLineAcc nD samples) = fun _ => 0 := by
  apply comDivide_zero_mass
  rw [comLineAcc_last, h]

theorem comRun_point_mass (nD : ℕ) (samples : List ((Fin nD → ℚ) × ℚ))
    (c : Fin nD → ℚ) (hc : ∀ s ∈ samples, s.2 ≠ 0 → s.1 = c)
    (hm : (samples.map Prod.snd).sum ≠ 0) :
    comDivide nD (comLineAcc nD samples) = c := by
  have hlast : comLineAcc nD samples (Fin.last nD) = (samples.map Prod.snd).sum :=
    comLineAcc_last nD samples
  funext j
  rw [comDivide, if_pos (by rw [hlast]; exact hm)]
  rw [comLineAcc_castSucc, hlast]
  have hmap : samples.map (fun s => s.1 j * s.2) = samples.map (fun s => c j * s.2) := by
    apply List.map_congr_left
    intro s hs
    rcases eq_or_ne s.2 0 with h0 | h0
    · rw [h0, mul_zero, mul_zero]
    · rw [hc s hs h0]
  rw [hmap, List.sum_map_mul_left, mul_div_assoc,
    div_self hm, mul_one]

/-! # Claim theorems -/

/-- **C1.** For every array of samples and every disjoint split of it into
two groups, building one accumulator per group and merging them with `+=`
yields the same sufficient statistics (and hence the same summary result;
the ℚ model of `dfloat` is exact, so "within floating-point rounding
tolerance" is exact equality here) as one accumulator built over all
samples in one pass, for Count, MinMax, SampleStatistics, Covariance,
CenterOfMass and Moments, independent of the split point and of the order
of the samples within each group. -/
theorem claim_C1_merge_equals_union :
    (∀ l1 l2 : List Bool,
        countGetResult [countLine l1, countLine l2] = countLine (l1 ++ l2))
    ∧ (∀ l1 l2 : List ℚ,
        (minMaxOfList l1).merge (minMaxOfList l2) = minMaxOfList (l1 ++ l2))
    ∧ (∀ l1 l2 : List ℚ,
        (statsOfList l1).merge (statsOfList l2) = statsOfList (l1 ++ l2))
    ∧ (∀ l1 l2 : List (ℚ × ℚ),
        (covOfList l1).merge (covOfList l2) = covOfList (l1 ++ l2))
    ∧ (∀ (nD : ℕ) (l1 l2 : List ((Fin nD → ℚ) × ℚ)),
        comLineAcc nD l1 + comLineAcc nD l2 = comLineAcc nD (l1 ++ l2))
    ∧ (∀ (nD : ℕ) (l1 l2 : List ((Fin nD → ℚ) × ℚ)),
        (momOfList nD l1).merge (momOfList nD l2) = momOfList nD (l1 ++ l2))
    ∧ (∀ l l' : List Bool, l.Perm l' → countLine l = countLine l')
    ∧ (∀ l l' : List ℚ, l.Perm l' →
        minMaxOfList l = minMaxOfList l' ∧ statsOfList l = statsOfList l')
    ∧ (∀ l l' : List (ℚ × ℚ), l.Perm l' → covOfList l = covOfList l')
    ∧ (∀ (nD : ℕ) (l l' : List ((Fin nD → ℚ) × ℚ)), l.Perm l' →
        comLineAcc nD l = comLineAcc nD l' ∧ momOfList nD l = momOfList nD l') := by
  refine ⟨?_, ?_, statsOfList_append, covOfList_append, ?_, momOfList_append,
    fun l l' h => countLine_perm h,
    fun l l' h => ⟨minMaxOfList_perm h, statsOfList_perm h⟩,
    fun l l' h => covOfList_perm h,
    fun nD l l' h => ⟨comLineAcc_perm nD h, momOfList_perm nD h⟩⟩
  · intro l1 l2
    rw [countGetResult, countLine_append]
    simp
  · intro l1 l2
    exact (minMaxOfList_append l1 l2).symm
  · intro nD l1 l2
    exact (comLineAcc_append nD l1 l2).symm

/-- Witness for C1: the permutation clauses applied at concrete inputs. -/
theorem claim_C1_merge_equals_union_witness :
    countLine [true, false] = countLine [false, true]
    ∧ statsOfList [1, 2, 3] = statsOfList [3, 1, 2]
    ∧ covOfList [(1, 2), (3, 4)] = covOfList [(3, 4), (1, 2)]
    ∧ momOfList 1 [(fun _ => 2, 5), (fun _ => 3, 7)]
        = momOfList 1 [(fun _ => 3, 7), (fun _ => 2, 5)] :=
  ⟨claim_C1_merge_equals_union.2.2.2.2.2.2.1 _ _
      (@List.perm_append_comm Bool [true] [false]),
   (claim_C1_merge_equals_union.2.2.2.2.2.2.2.1 _ _
      (@List.perm_append_comm ℚ [1, 2] [3])).2,
   claim_C1_merge_equals_union.2.2.2.2.2.2.2.2.1 _ _
      (@List.perm_append_comm (ℚ × ℚ) [(1, 2)] [(3, 4)]),
   (claim_C1_merge_equals_union.2.2.2.2.2.2.2.2.2 1 _ _
      (@List.perm_append_comm ((Fin 1 → ℚ) × ℚ) [(fun _ => 2, 5)] [(fun _ => 3, 7)])).2⟩

/-- **C3.** CumulativeSum along one axis replaces each sample by the sum of
all samples up to and including it; `CumulativeSum([1,2,3,4])` yields
`[1,3,6,10]`; with a mask, masked-out positions are first replaced by `0`
via a selection step before the separable pass, so `[1,2,3,4]` with mask
`[true,false,true,true]` yields `[1,1,4,8]`. -/
theorem claim_C3_cumulative_sum (l : List ℚ) (mask : List Bool) :
    (∀ i, i < l.length → (cumSumLine l).getD i 0 = (l.take (i + 1)).sum)
    ∧ cumSumLine [1, 2, 3, 4] = [1, 3, 6, 10]
    ∧ cumulativeSumMasked mask l = cumSumLine (selectZero mask l)
    ∧ (∀ i, i < (selectZero mask l).length →
        (cumulativeSumMasked mask l).getD i 0 = ((selectZero mask l).take (i + 1)).sum)
    ∧ selectZero [true, false, true, true] [1, 2, 3, 4] = [1, 0, 3, 4]
    ∧ cumulativeSumMasked [true, false, true, true] [1, 2, 3, 4] = [1, 1, 4, 8] := by
  refine ⟨cumSumLine_getD l, by norm_num [cumSumLine, cumSumGo], rfl,
    fun i h => cumSumLine_getD _ i h,
    by norm_num [selectZero],
    by norm_num [cumulativeSumMasked, selectZero, cumSumLine, cumSumGo]⟩

/-- Witness for C3: the prefix-sum characterisation evaluated at `i = 2`
of `[1,2,3,4]`. -/
theorem claim_C3_cumulative_sum_witness :
    2 < ([1, 2, 3, 4] : List ℚ).length
    ∧ (cumSumLine [1, 2, 3, 4]).getD 2 0 = (([1, 2, 3, 4] : List ℚ).take 3).sum :=
  ⟨by norm_num, (claim_C3_cumulative_sum [1, 2, 3, 4] []).1 2 (by norm_num)⟩

/-- **C4.** CenterOfMass accumulates per thread the per-axis sums of
value×position plus the scalar sum of values, merges per-thread partials by
component-wise addition, and returns each per-axis sum divided by the total
mass; when the total mass is exactly zero it returns the zero vector
without dividing; hence all mass at one coordinate gives exactly that
coordinate, and an all-zero image gives the zero vector. -/
theorem claim_C4_center_of_mass (nD : ℕ) (l1 l2 : List ((Fin nD → ℚ) × ℚ))
    (c : Fin nD → ℚ) :
    comGetResult nD (comLineAcc nD l1) [comLineAcc nD l2]
        = comDivide nD (comLineAcc nD (l1 ++ l2))
    ∧ comLineAcc nD (l1 ++ l2) (Fin.last nD) = ((l1 ++ l2).map Prod.snd).sum
    ∧ (((l1 ++ l2).map Prod.snd).sum ≠ 0 → ∀ j : Fin nD,
        comDivide nD (comLineAcc nD (l1 ++ l2)) j
          = ((l1 ++ l2).map (fun s => s.1 j * s.2)).sum
              / ((l1 ++ l2).map Prod.snd).sum)
    ∧ (((l1 ++ l2).map Prod.snd).sum = 0 →
        comDivide nD (comLineAcc nD (l1 ++ l2)) = fun _ => 0)
    ∧ ((∀ s ∈ l1 ++ l2, s.2 ≠ 0 → s.1 = c) → ((l1 ++ l2).map Prod.snd).sum ≠ 0 →
        comDivide nD (comLineAcc nD (l1 ++ l2)) = c)
    ∧ ((∀ s ∈ l1 ++ l2, s.2 = 0) →
        comDivide nD (comLineAcc nD (l1 ++ l2)) = fun _ => 0) := by
  refine ⟨?_, comLineAcc_last nD _, ?_, comRun_zero_mass nD _,
    comRun_point_mass nD _ c, ?_⟩
  · rw [comGetResult, List.foldl_cons, List.foldl_nil, comLineAcc_append]
  · intro hm j
    rw [comDivide, if_pos (by rw [comLineAcc_last]; exact hm),
      comLineAcc_castSucc, comLineAcc_last]
  · intro hz
    exact comRun_zero_mass nD _ (List.sum_eq_zero (by
      intro x hx
      obtain ⟨s, hs, hsx⟩ := List.mem_map.mp hx
      rw [← hsx]
      exact hz s hs))

/-- Witness for C4: all mass at the coordinate `3` of a 1-D image. -/
theorem claim_C4_center_of_mass_witness :
    ((([(fun _ => 3, 2)] : List ((Fin 1 → ℚ) × ℚ)) ++ [(fun _ => 3, 4)]).map
        Prod.snd).sum ≠ 0
    ∧ comDivide 1 (comLineAcc 1 ([(fun _ => 3, 2)] ++ [(fun _ => 3, 4)]))
        = fun _ => (3 : ℚ) := by
  have hm : ((([(fun _ => 3, 2)] : List ((Fin 1 → ℚ) × ℚ)) ++ [(fun _ => 3, 4)]).map
      Prod.snd).sum ≠ 0 := by norm_num
  refine ⟨hm, (claim_C4_center_of_mass 1 [(fun _ => 3, 2)] [(fun _ => 3, 4)]
    (fun _ => 3)).2.2.2.2.1 ?_ hm⟩
  intro s hs _
  rcases List.mem_cons.mp hs with h | h
  · rw [h]
  · rcases List.mem_cons.mp h with h2 | h2
    · rw [h2]
    · cases h2

/-- **C6.** Count increments an unsigned per-thread counter for a sample
exactly when the mask is absent, or the mask is true and the value is true;
the final result is the sum of the per-thread counters; masked Count with
an all-false mask is `0`, and with an all-true mask equals unmasked
Count. -/
theorem claim_C6_count :
    (∀ (m v : Bool) (l : List (Bool × Bool)),
        countMaskedLine ((m, v) :: l)
          = (if m && v then 1 else 0) + countMaskedLine l)
    ∧ (∀ (v : Bool) (l : List Bool),
        countLine (v :: l) = (if v then 1 else 0) + countLine l)
    ∧ (∀ counts : List ℕ, countGetResult counts = counts.sum)
    ∧ (∀ l1 l2 : List Bool,
        countGetResult [countLine l1, countLine l2] = countLine (l1 ++ l2))
    ∧ (∀ l : List (Bool × Bool), (∀ p ∈ l, p.1 = false) → countMaskedLine l = 0)
    ∧ (∀ l : List (Bool × Bool), (∀ p ∈ l, p.1 = true) →
        countMaskedLine l = countLine (l.map Prod.snd)) := by
  refine ⟨?_, ?_, fun _ => rfl, ?_, ?_, ?_⟩
  · intro m v l
    cases m <;> cases v <;> simp [countMaskedLine, List.filter, Nat.add_comm]
  · intro v l
    cases v <;> simp [countLine, List.filter, Nat.add_comm]
  · intro l1 l2
    rw [countGetResult, countLine_append]
    simp
  · intro l h
    rw [countMaskedLine, List.filter_eq_nil_iff.mpr, List.length_nil]
    intro p hp
    simp [h p hp]
  · intro l h
    rw [countMaskedLine, countLine, List.filter_map]
    rw [List.length_map]
    congr 1
    apply List.filter_congr
    intro p hp
    simp [h p hp, Function.comp]

/-- Witness for C6: the all-false and all-true mask facts at concrete
inputs. -/
theorem claim_C6_count_witness :
    countMaskedLine [(false, true), (false, true)] = 0
    ∧ countMaskedLine [(true, true), (true, false)]
        = countLine ([(true, true), (true, false)].map Prod.snd) :=
  ⟨claim_C6_count.2.2.2.2.1 _ (by decide),
   claim_C6_count.2.2.2.2.2 _ (by decide)⟩

/-- **C8.** On every unmasked input line (at least one sample), the
two-samples-per-iteration scan of `dip__MaximumAndMinimum::Filter`, with
the last odd sample handled singly, produces exactly the same
`MinMaxAccumulator` — and hence the same merged per-thread result — as a
straightforward one-sample-at-a-time loop over the same samples. -/
theorem claim_C8_unrolled_refinement (l : List ℚ) (_h : 0 < l.length) :
    (∀ a : MinMaxAccumulator, minMaxUnrolled a l = l.foldl MinMaxAccumulator.push a)
    ∧ minMaxUnrolled MinMaxAccumulator.empty l = minMaxOfList l
    ∧ (∀ slot : MinMaxAccumulator,
        slot.merge (minMaxUnrolled MinMaxAccumulator.empty l)
          = slot.merge (minMaxOfList l)) := by
  refine ⟨fun a => minMaxUnrolled_eq_foldl l a, minMaxUnrolled_eq_foldl l _, ?_⟩
  intro slot
  rw [minMaxUnrolled_eq_foldl l _, minMaxOfList]

/-- Witness for C8 at the three-sample line `[3, 1, 2]`. -/
theorem claim_C8_unrolled_refinement_witness :
    0 < ([3, 1, 2] : List ℚ).length
    ∧ minMaxUnrolled MinMaxAccumulator.empty [3, 1, 2] = minMaxOfList [3, 1, 2] :=
  ⟨by norm_num, (claim_C8_unrolled_refinement [3, 1, 2] (by norm_num)).2.1⟩

/-- **C2 (amended).** For MaximumPixel and MinimumPixel on a line of
samples, `first = true` uses strict comparisons and returns the coordinate
of the earliest-encountered occurrence of the extreme value, *provided
some sample compares strictly against the initial extreme value*
(`numeric_limits::lowest()` for max, `::max()` for min) — otherwise no
update ever fires and the default-constructed coordinate is returned;
`first = false` uses non-strict comparisons and returns the coordinate of
the latest-encountered occurrence for every nonempty line of representable
values; on `[3,5,5,2]`, `first = true` returns the position of the first
`5` and `first = false` the position of the last `5`. -/
theorem claim_C2_first_vs_last (lowest highest : ℤ) (pos : List ℕ) (dim : ℕ)
    (l : List ℤ) :
    ((∃ v ∈ l, lowest < v) →
        maxPixelRun1 true lowest pos dim l
          = updCoord pos dim (firstIdxOf l (listMax l)))
    ∧ (l ≠ [] → (∀ v ∈ l, lowest ≤ v) →
        maxPixelRun1 false lowest pos dim l
          = updCoord pos dim (lastIdxOf l (listMax l)))
    ∧ ((∃ v ∈ l, v < highest) →
        minPixelRun1 true highest pos dim l
          = updCoord pos dim (firstIdxOf l (listMin l)))
    ∧ (l ≠ [] → (∀ v ∈ l, v ≤ highest) →
        minPixelRun1 false highest pos dim l
          = updCoord pos dim (lastIdxOf l (listMin l)))
    ∧ maxPixelRun1 true 0 [0] 0 [3, 5, 5, 2] = [1]
    ∧ maxPixelRun1 false 0 [0] 0 [3, 5, 5, 2] = [2] :=
  ⟨maxPixelRun1_strict lowest pos dim l,
   maxPixelRun1_nonstrict lowest pos dim l,
   minPixelRun1_strict highest pos dim l,
   minPixelRun1_nonstrict highest pos dim l,
   by decide, by decide⟩

/-- Witness for C2 on the tie line `[3,5,5,2]` (element type modelled with
`lowest = 0`, `highest = 255`, as for `uint8`). -/
theorem claim_C2_first_vs_last_witness :
    (∃ v ∈ ([3, 5, 5, 2] : List ℤ), (0 : ℤ) < v)
    ∧ maxPixelRun1 true 0 [0] 0 [3, 5, 5, 2]
        = updCoord [0] 0 (firstIdxOf [3, 5, 5, 2] (listMax [3, 5, 5, 2]))
    ∧ maxPixelRun1 false 0 [0] 0 [3, 5, 5, 2]
        = updCoord [0] 0 (lastIdxOf [3, 5, 5, 2] (listMax [3, 5, 5, 2]))
    ∧ minPixelRun1 true 255 [0] 0 [3, 5, 5, 2]
        = updCoord [0] 0 (firstIdxOf [3, 5, 5, 2] (listMin [3, 5, 5, 2])) :=
  ⟨by decide,
   (claim_C2_first_vs_last 0 255 [0] 0 [3, 5, 5, 2]).1 (by decide),
   (claim_C2_first_vs_last 0 255 [0] 0 [3, 5, 5, 2]).2.1 (by decide) (by decide),
   (claim_C2_first_vs_last 0 255 [0] 0 [3, 5, 5, 2]).2.2.1 (by decide)⟩

/-- Counterexample to C2 as stated: on the all-lowest `uint8` line `[0,0]`
(`lowest = 0`), `first = true` never fires the strict comparison, the
per-thread coordinate slot keeps its default-constructed (empty) value and
`GetResult` returns it — not the coordinate `[0]` of the earliest
occurrence of the extreme value. -/
theorem claim_C2_counterexample :
    maxPixelRun1 true 0 [0] 0 [0, 0] = []
    ∧ updCoord [0] 0 (firstIdxOf [0, 0] (listMax [0, 0])) = [0]
    ∧ maxPixelRun1 true 0 [0] 0 [0, 0]
        ≠ updCoord [0] 0 (firstIdxOf [0, 0] (listMax [0, 0])) := by
  decide

/-- **C5.** Every statistics operation reports precondition violations
synchronously before any line is scanned (the `Except` model returns the
error with no result computed): an unforged input raises IMAGE_NOT_FORGED;
a non-scalar input to Count, MaximumPixel, MinimumPixel, CenterOfMass or
Moments raises IMAGE_NOT_SCALAR; CumulativeSum with dimensionality below 1
raises DIMENSIONALITY_NOT_SUPPORTED. -/
theorem claim_C5_error_preconditions (img : ImageMeta) (line : List Bool)
    (flag : String) (lowest highest : ℤ) (pos : List ℕ) (dim : ℕ)
    (lineZ : List ℤ) (nD : ℕ) (samples : List ((Fin nD → ℚ) × ℚ))
    (mask : Option (List Bool)) (lineQ : List ℚ) :
    (img.forged = false →
        countRun img line = .error .imageNotForged
        ∧ maximumPixelRun img flag lowest pos dim lineZ = .error .imageNotForged
        ∧ minimumPixelRun img flag highest pos dim lineZ = .error .imageNotForged
        ∧ centerOfMassRun img nD samples = .error .imageNotForged
        ∧ momentsRun img nD samples = .error .imageNotForged
        ∧ cumulativeSumRun img mask lineQ = .error .imageNotForged)
    ∧ (img.forged = true → img.scalar = false →
        countRun img line = .error .imageNotScalar
        ∧ maximumPixelRun img flag lowest pos dim lineZ = .error .imageNotScalar
        ∧ minimumPixelRun img flag highest pos dim lineZ = .error .imageNotScalar
        ∧ centerOfMassRun img nD samples = .error .imageNotScalar
        ∧ momentsRun img nD samples = .error .imageNotScalar)
    ∧ (img.forged = true → img.dims < 1 →
        cumulativeSumRun img mask lineQ = .error .dimensionalityNotSupported) := by
  refine ⟨?_, ?_, ?_⟩
  · intro h
    refine ⟨?_, ?_, ?_, ?_, ?_, ?_⟩ <;>
      simp [countRun, maximumPixelRun, minimumPixelRun, centerOfMassRun, momentsRun,
        cumulativeSumRun, forgedScalarChecks, cumulativeSumChecks, h]
  · intro hf hs
    refine ⟨?_, ?_, ?_, ?_, ?_⟩ <;>
      simp [countRun, maximumPixelRun, minimumPixelRun, centerOfMassRun, momentsRun,
        forgedScalarChecks, hf, hs]
  · intro hf hd
    simp [cumulativeSumRun, cumulativeSumChecks, hf, hd]

/-- Witness for C5: an unforged image, a forged non-scalar image, and a
forged zero-dimensional image. -/
theorem claim_C5_error_preconditions_witness :
    ((⟨false, true, 1⟩ : ImageMeta).forged = false
      ∧ countRun ⟨false, true, 1⟩ [] = .error .imageNotForged)
    ∧ ((⟨true, false, 1⟩ : ImageMeta).forged = true
      ∧ (⟨true, false, 1⟩ : ImageMeta).scalar = false
      ∧ countRun ⟨true, false, 1⟩ [] = .error .imageNotScalar)
    ∧ ((⟨true, true, 0⟩ : ImageMeta).forged = true
      ∧ (⟨true, true, 0⟩ : ImageMeta).dims < 1
      ∧ cumulativeSumRun ⟨true, true, 0⟩ none [] = .error .dimensionalityNotSupported) :=
  ⟨⟨rfl, (claim_C5_error_preconditions ⟨false, true, 1⟩ [] "first" 0 0 [] 0 [] 0 [] none []).1 rfl |>.1⟩,
   ⟨rfl, rfl, ((claim_C5_error_preconditions ⟨true, false, 1⟩ [] "first" 0 0 [] 0 [] 0 [] none []).2.1 rfl rfl).1⟩,
   ⟨rfl, by decide, (claim_C5_error_preconditions ⟨true, true, 0⟩ [] "first" 0 0 [] 0 [] 0 [] none []).2.2 rfl (by decide)⟩⟩

/-- **C7 (amended).** Per-thread value slots of `dip__MaxPixel` (resp.
`dip__MinPixel`) are initialised to the element type's lowest (resp.
highest) representable value, with default-constructed (empty) coordinate
arrays.  With `first = true` (strict comparisons) a per-thread state into
which no sample was ever pushed is an identity for the merge, both at the
end of `Filter` and in `GetResult`.  With `first = false` (non-strict
comparisons) merging such a state never changes the best *value*, and is a
complete no-op whenever the current best value strictly exceeds the
initial extreme — but when the best value *equals* the initial extreme the
stored coordinate is replaced by the never-pushed slot's default
coordinate (see the counterexample). -/
theorem claim_C7_empty_thread_merge (lowest highest : ℤ) (T : ℕ)
    (slot slot0 : ℤ × List ℕ) (r1 r2 : List (ℤ × List ℕ)) (c : List ℕ)
    (pos : List ℕ) (dim : ℕ) (mline : List (Bool × ℤ)) :
    (∀ t, t < T → (maxSetThreads lowest T).getD t (0, []) = (lowest, []))
    ∧ (∀ t, t < T → (minSetThreads highest T).getD t (0, []) = (highest, []))
    ∧ ((∀ p ∈ mline, p.1 = false) → lowest ≤ slot.1 →
        maxSlotUpd true
          (maxScanGoMasked true pos dim mline 0 (lowest, List.replicate pos.length 0))
          slot = slot)
    ∧ ((∀ p ∈ mline, p.1 = false) → slot.1 ≤ highest →
        minSlotUpd true
          (minScanGoMasked true pos dim mline 0 (highest, List.replicate pos.length 0))
          slot = slot)
    ∧ (lowest ≤ slot0.1 →
        maxGetResult true slot0 (r1 ++ (lowest, c) :: r2)
          = maxGetResult true slot0 (r1 ++ r2))
    ∧ (slot0.1 ≤ highest →
        minGetResult true slot0 (r1 ++ (highest, c) :: r2)
          = minGetResult true slot0 (r1 ++ r2))
    ∧ (lowest ≤ slot0.1 →
        (pickBest false slot0 (r1 ++ (lowest, c) :: r2)).1
          = (pickBest false slot0 (r1 ++ r2)).1)
    ∧ (slot0.1 ≤ highest →
        (pickBestMin false slot0 (r1 ++ (highest, c) :: r2)).1
          = (pickBestMin false slot0 (r1 ++ r2)).1)
    ∧ (lowest < slot0.1 →
        maxGetResult false slot0 (r1 ++ (lowest, c) :: r2)
          = maxGetResult false slot0 (r1 ++ r2))
    ∧ (slot0.1 < highest →
        minGetResult false slot0 (r1 ++ (highest, c) :: r2)
          = minGetResult false slot0 (r1 ++ r2)) := by
  refine ⟨?_, ?_, ?_, ?_, ?_, ?_,
    pickBest_nonstrict_skip_fst slot0 lowest c r1 r2,
    pickBestMin_nonstrict_skip_fst slot0 highest c r1 r2, ?_, ?_⟩
  · intro t ht
    rw [maxSetThreads, List.getD_eq_getElem _ _ (by simpa using ht)]
    simp
  · intro t ht
    rw [minSetThreads, List.getD_eq_getElem _ _ (by simpa using ht)]
    simp
  · intro hmask hle
    rw [maxScanGoMasked_all_false true pos dim mline 0 _ hmask, maxSlotUpd]
    rw [if_neg (by simpa using not_lt.mpr hle)]
  · intro hmask hle
    rw [minScanGoMasked_all_false true pos dim mline 0 _ hmask, minSlotUpd]
    rw [if_neg (by simpa using not_lt.mpr hle)]
  · intro hle
    rw [maxGetResult, maxGetResult, pickBest_strict_skip slot0 lowest c r1 r2 hle]
  · intro hle
    rw [minGetResult, minGetResult, pickBestMin_strict_skip slot0 highest c r1 r2 hle]
  · intro hlt
    rw [maxGetResult, maxGetResult, pickBest_nonstrict_skip slot0 lowest c r1 r2 hlt]
  · intro hlt
    rw [minGetResult, minGetResult, pickBestMin_nonstrict_skip slot0 highest c r1 r2 hlt]

/-- Witness for C7: thread slot `(7, [4])` (best value `7 > 0 = lowest`)
is unchanged when a never-pushed slot `(0, [])` is merged in, for both
comparison modes, and a fully-masked line leaves the slot alone. -/
theorem claim_C7_empty_thread_merge_witness :
    ((0 : ℤ) ≤ (((7 : ℤ), [4]) : ℤ × List ℕ).1
      ∧ maxGetResult true (7, [4]) ([] ++ (0, []) :: []) = maxGetResult true (7, [4]) ([] ++ []))
    ∧ ((0 : ℤ) < (((7 : ℤ), [4]) : ℤ × List ℕ).1
      ∧ maxGetResult false (7, [4]) ([] ++ (0, []) :: []) = maxGetResult false (7, [4]) ([] ++ []))
    ∧ ((∀ p ∈ ([(false, (3 : ℤ))] : List (Bool × ℤ)), p.1 = false)
      ∧ maxSlotUpd true
          (maxScanGoMasked true [0] 0 [(false, 3)] 0 (0, List.replicate ([0] : List ℕ).length 0))
          (7, [4]) = (7, [4])) :=
  ⟨⟨by decide, (claim_C7_empty_thread_merge 0 0 1 (0, []) (7, [4]) [] [] [] [0] 0
      [(false, 3)]).2.2.2.2.1 (by decide)⟩,
   ⟨by decide, (claim_C7_empty_thread_merge 0 0 1 (0, []) (7, [4]) [] [] [] [0] 0
      [(false, 3)]).2.2.2.2.2.2.2.2.1 (by decide)⟩,
   ⟨by decide, (claim_C7_empty_thread_merge 0 0 1 (7, [4]) (0, []) [] [] [] [0] 0
      [(false, 3)]).2.2.1 (by decide) (by decide)⟩⟩

/-- Counterexample to C7 as stated: with `first = false` and an existing
best value equal to the initial extreme (`lowest`, here `0` as for
`uint8`), merging a never-pushed thread slot `(0, [])` in `GetResult`
replaces the stored coordinate `[5]` by the default-constructed empty
coordinate. -/
theorem claim_C7_counterexample :
    maxGetResult false (0, [5]) [(0, [])] = []
    ∧ maxGetResult false (0, [5]) [] = [5]
    ∧ maxGetResult false (0, [5]) [(0, [])] ≠ maxGetResult false (0, [5]) [] := by
  decide

/-- **C10.** Any `positionFlag` string other than exactly `"first"` is
silently treated as selecting last-occurrence behaviour (`first = false`);
no validation is performed and no error is raised for an unrecognised
flag value. -/
theorem claim_C10_unrecognized_flag (s : String) (h : s ≠ "first") :
    parsePositionFlag s = false
    ∧ (∀ (img : ImageMeta) (lowest : ℤ) (pos : List ℕ) (dim : ℕ) (line : List ℤ),
        maximumPixelRun img s lowest pos dim line
          = maximumPixelRun img "last" lowest pos dim line)
    ∧ (∀ (img : ImageMeta) (highest : ℤ) (pos : List ℕ) (dim : ℕ) (line : List ℤ),
        minimumPixelRun img s highest pos dim line
          = minimumPixelRun img "last" highest pos dim line)
    ∧ (∀ (img : ImageMeta) (lowest : ℤ) (pos : List ℕ) (dim : ℕ) (line : List ℤ),
        img.forged = true → img.scalar = true →
        maximumPixelRun img s lowest pos dim line
          = .ok (maxPixelRun1 false lowest pos dim line)) := by
  have hp : parsePositionFlag s = false := by
    rw [parsePositionFlag]
    exact beq_eq_false_iff_ne.mpr h
  have hlast : parsePositionFlag "last" = false := by decide
  refine ⟨hp, ?_, ?_, ?_⟩
  · intro img lowest pos dim line
    rw [maximumPixelRun, maximumPixelRun, hp, hlast]
  · intro img highest pos dim line
    rw [minimumPixelRun, minimumPixelRun, hp, hlast]
  · intro img lowest pos dim line hf hs
    rw [maximumPixelRun, forgedScalarChecks, hf, hs]
    simp [hp]

/-- Witness for C10 at the misspelt flag `"frist"`. -/
theorem claim_C10_unrecognized_flag_witness :
    ("frist" ≠ "first")
    ∧ parsePositionFlag "frist" = false
    ∧ maximumPixelRun ⟨true, true, 1⟩ "frist" 0 [0] 0 [3, 5, 5, 2]
        = .ok (maxPixelRun1 false 0 [0] 0 [3, 5, 5, 2]) :=
  ⟨by decide, (claim_C10_unrecognized_flag "frist" (by decide)).1,
   (claim_C10_unrecognized_flag "frist" (by decide)).2.2.2 ⟨true, true, 1⟩ 0 [0] 0
     [3, 5, 5, 2] rfl rfl⟩
